import Mathlib

/-!
# c-unit-test-template: the stub cmocka harness and the arithmetic library

A shallow embedding of `external/cmocka/src/cmocka.c` (assertion primitives
and the group runner), of the truth macros of `external/cmocka/include/cmocka.h`
and of the `add`, `multiply` and `divide` contracts of
`include/mylib/math_utils.h`.

Conventions of the embedding:

* The two `static int` counters, the text written to stdout and (as ghost
  data) the order in which hooks are called make up the `World`.
* `exit(1)` is an outcome of its own, `Outcome.exited`, carrying the status.
* An `int` is 32 bits wide.  Its values are the integers from `INT_MIN` to
  `INT_MAX`; increments, sums, differences and products are taken modulo
  `2^32` (`wrap`), so a counter at `INT_MAX` that is incremented holds
  `INT_MIN`; a quotient that is not an `int` has no value.
* A hook is C code reached through a function pointer.  It can touch the
  harness only through the assertion primitives, so one call of a hook is
  described by the assertion calls it makes, in order, the value it returns
  and the content it leaves in the state cell.
-/

namespace MathUtils

/-- Least value of `int` (32 bits). -/
def INT_MIN : Int := -2147483648

/-- Greatest value of `int` (32 bits). -/
def INT_MAX : Int := 2147483647

/-- The value is an `int`. -/
def is_int (a : Int) : Prop := INT_MIN ≤ a ∧ a ≤ INT_MAX

instance (a : Int) : Decidable (is_int a) := by unfold is_int; infer_instance

/-- The `int` congruent to `x` modulo `2^32`: the value an `int` holds after
an operation whose exact result is `x` (two's complement). -/
def wrap (x : Int) : Int := (x - INT_MIN) % 4294967296 + INT_MIN

/-- C's `a - b` on `int` operands, in `int` arithmetic. -/
def int_sub (a b : Int) : Int := wrap (a - b)

end MathUtils

namespace CMocka

/-- A `void*`; `0` is `NULL`. -/
abbrev Ptr := Nat

/-- A `const char*` argument: the bytes found from the pointed-to address
on.  Reading beyond the list yields the terminating `0`. -/
abbrev CString := List Nat

/-- One line of console output, with the values substituted in the format. -/
inductive Line where
  | failed_true (file : String) (line : Int) (expr : String)
  | failed_int_equal (file : String) (line : Int) (b a : Int)
  | failed_int_not_equal (file : String) (line : Int) (a : Int)
  | failed_string_equal (file : String) (line : Int) (b a : CString)
  | failed_string_not_equal (file : String) (line : Int) (a : CString)
  | failed_ptr_equal (file : String) (line : Int) (b a : Ptr)
  | failed_ptr_not_equal (file : String) (line : Int) (a : Ptr)
  | running (num_tests : Nat) (group_name : String)
  | group_setup_failed
  | run (name : String)
  | setup_failed
  | ok (name : String)
  | tests_run (n : Int)
  | passed (n : Int)
  | failed (n : Int)
  deriving DecidableEq, Repr

/-- The hook slots of a run; `i` is the loop index of the test case. -/
inductive Hook where
  | group_setup
  | setup (i : Nat)
  | test (i : Nat)
  | teardown (i : Nat)
  | group_teardown
  deriving DecidableEq, Repr

/-- A recorded hook call: which slot, and the `void** state` it was handed
(`none` for `NULL`, `some p` for the address of a cell holding `p`). -/
structure Call where
  hook : Hook
  arg : Option Ptr
  deriving DecidableEq, Repr

/-- Process state seen by the harness. `tests_run`, `tests_failed` are the
file-scope `static int` counters of cmocka.c, changed only by `incr`, which
keeps them within the `int` range; `out` is stdout; `calls` is the ghost
record of hook calls, oldest first. -/
structure World where
  tests_run : Int
  tests_failed : Int
  out : List Line
  calls : List Call
  deriving DecidableEq, Repr

/-- The state of a process that has just started: `static int ... = 0`. -/
def World.fresh : World := ⟨0, 0, [], []⟩

/-- How a piece of C code ends: it returns a value, or the process is
terminated by `exit(status)`. -/
inductive Outcome (α : Type) where
  | returned (v : α) (w : World)
  | exited (status : Int) (w : World)
  deriving DecidableEq, Repr

/-- `printf` of one line. -/
def printf (l : Line) (w : World) : World :=
  { w with out := w.out ++ [l] }

/-- `x++` on an `int` counter: the next value in `int` arithmetic. -/
def incr (x : Int) : Int := MathUtils.wrap (x + 1)

/-- The three statements of every failing branch: print the diagnostic,
`tests_failed++`, `exit(1)`. -/
def fail_with {α : Type} (l : Line) (w : World) : Outcome α :=
  let w := printf l w
  let w := { w with tests_failed := incr w.tests_failed }
  .exited 1 w

/-- `strcmp` of the C library: walks both texts until they differ or the
terminator is reached; the result is the difference of the bytes there. -/
def strcmp : CString → CString → Int
  | [], [] => 0
  | [], b :: _ => 0 - (b : Int)
  | a :: _, [] => (a : Int)
  | a :: as, b :: bs =>
    if a ≠ b then (a : Int) - (b : Int)
    else if a = 0 then 0
    else strcmp as bs

/-- The text a `const char*` denotes: the bytes before the first `0`. -/
def text (s : CString) : List Nat := s.takeWhile (fun c => c ≠ 0)

def _assert_true (condition : Int) (expr file : String) (line : Int) (w : World) : Outcome Unit :=
  if condition = 0 then fail_with (.failed_true file line expr) w
  else .returned () w

def _assert_int_equal (a b : Int) (file : String) (line : Int) (w : World) : Outcome Unit :=
  if a ≠ b then fail_with (.failed_int_equal file line b a) w
  else .returned () w

def _assert_int_not_equal (a b : Int) (file : String) (line : Int) (w : World) : Outcome Unit :=
  if a = b then fail_with (.failed_int_not_equal file line a) w
  else .returned () w

def _assert_string_equal (a b : CString) (file : String) (line : Int) (w : World) : Outcome Unit :=
  if strcmp a b ≠ 0 then fail_with (.failed_string_equal file line b a) w
  else .returned () w

def _assert_string_not_equal (a b : CString) (file : String) (line : Int) (w : World) :
    Outcome Unit :=
  if strcmp a b = 0 then fail_with (.failed_string_not_equal file line a) w
  else .returned () w

def _assert_ptr_equal (a b : Ptr) (file : String) (line : Int) (w : World) : Outcome Unit :=
  if a ≠ b then fail_with (.failed_ptr_equal file line b a) w
  else .returned () w

def _assert_ptr_not_equal (a b : Ptr) (file : String) (line : Int) (w : World) : Outcome Unit :=
  if a = b then fail_with (.failed_ptr_not_equal file line a) w
  else .returned () w

/-- A call of one of the assertion primitives, as written in a hook. -/
inductive AssertCall where
  | true_ (condition : Int) (expr file : String) (line : Int)
  | int_equal (a b : Int) (file : String) (line : Int)
  | int_not_equal (a b : Int) (file : String) (line : Int)
  | string_equal (a b : CString) (file : String) (line : Int)
  | string_not_equal (a b : CString) (file : String) (line : Int)
  | ptr_equal (a b : Ptr) (file : String) (line : Int)
  | ptr_not_equal (a b : Ptr) (file : String) (line : Int)
  deriving DecidableEq, Repr

/-- Executing an assertion call is calling the primitive it names. -/
def AssertCall.exec : AssertCall → World → Outcome Unit
  | .true_ c e f l => _assert_true c e f l
  | .int_equal a b f l => _assert_int_equal a b f l
  | .int_not_equal a b f l => _assert_int_not_equal a b f l
  | .string_equal a b f l => _assert_string_equal a b f l
  | .string_not_equal a b f l => _assert_string_not_equal a b f l
  | .ptr_equal a b f l => _assert_ptr_equal a b f l
  | .ptr_not_equal a b f l => _assert_ptr_not_equal a b f l

/-- The comparison of an assertion call mismatches. -/
def AssertCall.mismatch : AssertCall → Bool
  | .true_ c _ _ _ => c == 0
  | .int_equal a b _ _ => a != b
  | .int_not_equal a b _ _ => a == b
  | .string_equal a b _ _ => text a != text b
  | .string_not_equal a b _ _ => text a == text b
  | .ptr_equal a b _ _ => a != b
  | .ptr_not_equal a b _ _ => a == b

/-- The assertion calls of a hook, one after the other; the first one that
terminates the process ends everything. -/
def exec_asserts : List AssertCall → World → Outcome Unit
  | [], w => .returned () w
  | a :: rest, w =>
    match a.exec w with
    | .returned _ w => exec_asserts rest w
    | .exited s w => .exited s w

/-- One call of a hook: the assertion calls it makes in program order, the
value it returns and what it leaves in `*state` (unused when it was handed
`NULL`), the latter two reached only if every assertion call returns. -/
structure Invocation (ρ : Type) where
  asserts : List AssertCall
  ret : ρ
  state : Ptr

/-- `typedef void (*CMUnitTestFunction)(void** state)`. -/
abbrev CMUnitTestFunction := Option Ptr → Invocation Unit

/-- `typedef int (*CMFixtureFunction)(void** state)`. -/
abbrev CMFixtureFunction := Option Ptr → Invocation Int

/-- `struct CMUnitTest`; a `NULL` fixture pointer is `none`. -/
structure CMUnitTest where
  name : String
  test_func : CMUnitTestFunction
  setup_func : Option CMFixtureFunction
  teardown_func : Option CMFixtureFunction
  initial_state : Ptr

/-- Calling through a hook pointer: the call is recorded, the hook's
assertion calls are executed, and unless one of them terminated the process
the hook returns its value and the cell content. -/
def invoke {ρ : Type} (h : Hook) (arg : Option Ptr) (f : Option Ptr → Invocation ρ)
    (w : World) : Outcome (ρ × Ptr) :=
  let w := { w with calls := w.calls ++ [⟨h, arg⟩] }
  match exec_asserts (f arg).asserts w with
  | .returned _ w => .returned ((f arg).ret, (f arg).state) w
  | .exited s w => .exited s w

/-- The loop body from `test->test_func(&state)` to the `OK` line. -/
def run_body (i : Nat) (test : CMUnitTest) (state : Ptr) (w : World) : Outcome Unit :=
  match invoke (.test i) (some state) test.test_func w with
  | .exited s w => .exited s w
  | .returned (_, state) w =>
    match test.teardown_func with
    | some teardown_func =>
      match invoke (.teardown i) (some state) teardown_func w with
      | .exited s w => .exited s w
      | .returned _ w => .returned () (printf (.ok test.name) w)
    | none => .returned () (printf (.ok test.name) w)

/-- One iteration of the `for` loop of `_cmocka_run_group_tests`. -/
def run_test (i : Nat) (test : CMUnitTest) (w : World) : Outcome Unit :=
  let state := test.initial_state
  let w := printf (.run test.name) w
  let w := { w with tests_run := incr w.tests_run }
  match test.setup_func with
  | some setup_func =>
    match invoke (.setup i) (some state) setup_func w with
    | .exited s w => .exited s w
    | .returned (rc, state) w =>
      if rc ≠ 0 then
        let w := printf .setup_failed w
        let w := { w with tests_failed := incr w.tests_failed }
        .returned () w
      else run_body i test state w
  | none => run_body i test state w

/-- The `for (i = ...; i < num_tests; i++)` loop over `tests[i]`, entered
with loop index `i` and the records `tests[i..]` still to run. -/
def run_tests : Nat → List CMUnitTest → World → Outcome Unit
  | _, [], w => .returned () w
  | i, test :: rest, w =>
    match run_test i test w with
    | .exited s w => .exited s w
    | .returned _ w => run_tests (i + 1) rest w

/-- The part of `_cmocka_run_group_tests` after the loop: optional group
teardown, the summary, `return tests_failed`. -/
def finish (group_teardown : Option CMFixtureFunction) (w : World) : Outcome Int :=
  let after : Outcome Unit :=
    match group_teardown with
    | some f =>
      match invoke .group_teardown none f w with
      | .exited s w => .exited s w
      | .returned _ w => .returned () w
    | none => .returned () w
  match after with
  | .exited s w => .exited s w
  | .returned _ w =>
    let w := printf (.tests_run w.tests_run) w
    let w := printf (.passed (MathUtils.int_sub w.tests_run w.tests_failed)) w
    let w := if w.tests_failed > 0 then printf (.failed w.tests_failed) w else w
    .returned w.tests_failed w

/-- The runner.  `tests` is the array of `num_tests` records. -/
def _cmocka_run_group_tests (group_name : String) (tests : List CMUnitTest)
    (group_setup group_teardown : Option CMFixtureFunction) (w : World) : Outcome Int :=
  let num_tests := tests.length
  let w := printf (.running num_tests group_name) w
  let loop (w : World) : Outcome Int :=
    match run_tests 0 tests w with
    | .exited s w => .exited s w
    | .returned _ w => finish group_teardown w
  match group_setup with
  | some f =>
    match invoke .group_setup none f w with
    | .exited s w => .exited s w
    | .returned (rc, _) w =>
      if rc ≠ 0 then
        let w := printf .group_setup_failed w
        .returned 1 w
      else loop w
  | none => loop w

/-! ### Vocabulary for stating properties of a run

Every hook of a test case is called at most once, on a cell whose content is
fixed by the record and by the hooks called before it on the same cell, so
what each call does can be read off the record. -/

/-- No assertion call of this hook call mismatches. -/
def Invocation.passes {ρ : Type} (inv : Invocation ρ) : Bool :=
  inv.asserts.all (fun a => !a.mismatch)

/-- A fixture pointer is `NULL`, or the fixture returns `0` on this argument. -/
def succeeds (f : Option CMFixtureFunction) (arg : Option Ptr) : Bool :=
  match f with
  | some f => (f arg).ret == 0
  | none => true

/-- A fixture pointer is `NULL`, or no assertion of the fixture mismatches
on this argument. -/
def asserts_pass (f : Option CMFixtureFunction) (arg : Option Ptr) : Bool :=
  match f with
  | some f => (f arg).passes
  | none => true

/-- The setup hook of the case is present and returns non-zero. -/
def CMUnitTest.setup_fails (t : CMUnitTest) : Bool :=
  !succeeds t.setup_func (some t.initial_state)

/-- Content of the state cell when the body is entered. -/
def CMUnitTest.body_state (t : CMUnitTest) : Ptr :=
  match t.setup_func with
  | some f => (f (some t.initial_state)).state
  | none => t.initial_state

/-- Content of the state cell when the teardown is entered. -/
def CMUnitTest.teardown_state (t : CMUnitTest) : Ptr :=
  (t.test_func (some t.body_state)).state

/-- No assertion fails in the hooks of this case that are reached: its
setup, and, when the setup did not return non-zero, its body and teardown. -/
def CMUnitTest.no_assertion_fails (t : CMUnitTest) : Bool :=
  asserts_pass t.setup_func (some t.initial_state) &&
    (t.setup_fails ||
      ((t.test_func (some t.body_state)).passes &&
        asserts_pass t.teardown_func (some t.teardown_state)))

/-- The call of a fixture slot, if the pointer is not `NULL`. -/
def fixture_call (h : Hook) (f : Option CMFixtureFunction) (arg : Option Ptr) : List Call :=
  match f with
  | some _ => [⟨h, arg⟩]
  | none => []

/-- The hook calls prescribed for case `i`: its setup (if present), then,
unless that setup returned non-zero, its body followed by its teardown (if
present). -/
def case_calls (i : Nat) (t : CMUnitTest) : List Call :=
  fixture_call (.setup i) t.setup_func (some t.initial_state) ++
    (if t.setup_fails then []
     else ⟨.test i, some t.body_state⟩ ::
       fixture_call (.teardown i) t.teardown_func (some t.teardown_state))

/-- The hook calls prescribed for the cases `tests[i..]`, in the order given. -/
def cases_calls : Nat → List CMUnitTest → List Call
  | _, [] => []
  | i, t :: rest => case_calls i t ++ cases_calls (i + 1) rest

/-- The hook calls prescribed for a whole run: group setup (if present), the
cases in order, group teardown (if present). -/
def group_calls (tests : List CMUnitTest) (group_setup group_teardown : Option CMFixtureFunction) :
    List Call :=
  fixture_call .group_setup group_setup none ++ cases_calls 0 tests ++
    fixture_call .group_teardown group_teardown none

/-- The progress lines of one case. -/
def case_lines (t : CMUnitTest) : List Line :=
  [.run t.name, if t.setup_fails then .setup_failed else .ok t.name]

/-- The progress lines of the cases, in order. -/
def cases_lines : List CMUnitTest → List Line
  | [] => []
  | t :: rest => case_lines t ++ cases_lines rest

/-- The summary: attempted count, passed count and, when positive, failed
count. -/
def summary_lines (attempted failed : Int) : List Line :=
  [.tests_run attempted, .passed (MathUtils.int_sub attempted failed)] ++
    (if failed > 0 then [.failed failed] else [])

/-- The value of an `int` counter that held `x` after `n` increments. -/
def counted (x : Int) : Nat → Int
  | 0 => x
  | n + 1 => incr (counted x n)

/-- The number of cases whose setup hook is present and returns non-zero. -/
def failed_setups (tests : List CMUnitTest) : Nat :=
  (tests.filter (fun t => t.setup_fails)).length

/-- The loop index of the test case a hook slot belongs to. -/
def Hook.index : Hook → Option Nat
  | .setup i => some i
  | .test i => some i
  | .teardown i => some i
  | _ => none

/-- The arguments of one call of the runner. -/
structure GroupRun where
  group_name : String
  tests : List CMUnitTest
  group_setup : Option CMFixtureFunction
  group_teardown : Option CMFixtureFunction

/-- The call of the runner on these arguments. -/
def GroupRun.call (g : GroupRun) (w : World) : Outcome Int :=
  _cmocka_run_group_tests g.group_name g.tests g.group_setup g.group_teardown w

/-- The group setup succeeds and no assertion fails in a hook the call
reaches. -/
def GroupRun.no_assertion_fails (g : GroupRun) : Bool :=
  succeeds g.group_setup none && asserts_pass g.group_setup none &&
    asserts_pass g.group_teardown none && g.tests.all (fun t => t.no_assertion_fails)

/-- The process was terminated with a non-zero exit status. -/
def Outcome.terminated {α : Type} : Outcome α → Prop
  | .exited s _ => s ≠ 0
  | .returned _ _ => False

end CMocka

/-! ### Sample hooks and cases -/

namespace Sample

open CMocka

/-- The fixtures of test_math_utils.c: `(void)state; return 0;`. -/
def setup : CMFixtureFunction := fun state => ⟨[], 0, state.getD 0⟩

/-- A fixture that reports failure: `return 1;`. -/
def setup_refuses : CMFixtureFunction := fun state => ⟨[], 1, state.getD 0⟩

/-- A fixture that stores `7` in the state cell and returns `0`. -/
def setup_stores : CMFixtureFunction := fun _ => ⟨[], 0, 7⟩

/-- A body whose assertion matches: `assert_int_equal(5, 5)`. -/
def test_holds : CMUnitTestFunction :=
  fun state => ⟨[.int_equal 5 5 "t.c" 3], (), state.getD 0⟩

/-- A body whose second assertion mismatches: `assert_int_equal(3, 5)`. -/
def test_breaks : CMUnitTestFunction :=
  fun state => ⟨[.true_ 1 "1" "t.c" 8, .int_equal 3 5 "t.c" 9], (), state.getD 0⟩

/-- `cmocka_unit_test(test_holds)`. -/
def case_plain : CMUnitTest := ⟨"test_holds", test_holds, none, none, 0⟩

/-- `cmocka_unit_test_setup_teardown(test_holds, setup_stores, setup)`. -/
def case_full : CMUnitTest := ⟨"test_holds", test_holds, some setup_stores, some setup, 0⟩

/-- `cmocka_unit_test_setup_teardown(test_holds, setup_refuses, setup)`. -/
def case_refused : CMUnitTest := ⟨"test_holds", test_holds, some setup_refuses, some setup, 0⟩

/-- `cmocka_unit_test_teardown(test_breaks, setup)`. -/
def case_broken : CMUnitTest := ⟨"test_breaks", test_breaks, none, some setup, 0⟩

/-- The world left by the run of `case_full`, `case_refused`, `case_plain`
with a group teardown and no group setup, started in a fresh process. -/
def world_after_three : World :=
  ⟨3, 1,
    [.running 3 "tests", .run "test_holds", .ok "test_holds", .run "test_holds", .setup_failed,
      .run "test_holds", .ok "test_holds", .tests_run 3, .passed 2, .failed 1],
    [⟨.setup 0, some 0⟩, ⟨.test 0, some 7⟩, ⟨.teardown 0, some 7⟩, ⟨.setup 1, some 0⟩,
      ⟨.test 2, some 0⟩, ⟨.group_teardown, none⟩]⟩

end Sample

namespace MathUtils

/-- C's `a / b` on `int` operands: the algebraic quotient with the
fractional part discarded; not defined when `b` is `0` or when the quotient
is not an `int`. -/
def int_div (a b : Int) : Option Int :=
  if b = 0 then none
  else if is_int (Int.tdiv a b) then some (Int.tdiv a b)
  else none

/-- Modelled from the spec: the body of `divide` (math_utils.c is not among
the sources; the header declares `int divide(int a, int b)` and documents
"Quotient (a / b), or 0 if b is 0").  Division by zero yields zero; otherwise
the result is the `int` quotient `a / b`. -/
def divide (a b : Int) : Option Int :=
  if b = 0 then some 0 else int_div a b

/-- Modelled from the spec: the body of `add` (math_utils.c is not among the
sources; the header declares `int add(int a, int b)` and documents "Sum of a
and b").  The sum is taken in `int` arithmetic. -/
def add (a b : Int) : Int := wrap (a + b)

/-- Modelled from the spec: the body of `multiply` (math_utils.c is not among
the sources; the header declares `int multiply(int a, int b)` and documents
"Product of a and b").  The product is taken in `int` arithmetic. -/
def multiply (a b : Int) : Int := wrap (a * b)

end MathUtils

/-! ### The truth macros, and further vocabulary -/

namespace CMocka

/-- Conversion of an integer value of any width to the `int condition`
parameter of `_assert_true`: the `int` congruent to it modulo `2^32`. -/
def to_int (c : Int) : Int := MathUtils.wrap c

/-- C's `!(c)`, computed in the type of `c`: `1` when `c` is `0`, else `0`. -/
def lnot (c : Int) : Int := if c = 0 then 1 else 0

/-- `#define assert_true(c) _assert_true(c, #c, __FILE__, __LINE__)`: the
argument is converted to `int`. -/
def assert_true (c : Int) (expr file : String) (line : Int) (w : World) : Outcome Unit :=
  _assert_true (to_int c) expr file line w

/-- `#define assert_false(c) _assert_true(!(c), #c, __FILE__, __LINE__)`. -/
def assert_false (c : Int) (expr file : String) (line : Int) (w : World) : Outcome Unit :=
  _assert_true (lnot c) expr file line w

/-- The world in which a piece of code ended. -/
def Outcome.world {α : Type} : Outcome α → World
  | .returned _ w => w
  | .exited _ w => w

/-- The hook slot is the body of a test case. -/
def Hook.is_test : Hook → Bool
  | .test _ => true
  | _ => false

/-- The counters satisfy `0 <= tests_failed <= tests_run`. -/
def World.counters_ok (w : World) : Prop :=
  0 ≤ w.tests_failed ∧ w.tests_failed ≤ w.tests_run

instance (w : World) : Decidable w.counters_ok := by unfold World.counters_ok; infer_instance

/-- The fixture `f` with its return value replaced by `r`; assertion calls
and what it leaves in the state cell are those of `f`. -/
def with_ret (f : CMFixtureFunction) (r : Option Ptr → Int) : CMFixtureFunction :=
  fun arg => { f arg with ret := r arg }

/-- The case with the return value of its teardown (if present) replaced. -/
def CMUnitTest.with_teardown_ret (t : CMUnitTest) (r : Option Ptr → Int) : CMUnitTest :=
  { t with teardown_func := t.teardown_func.map (fun f => with_ret f r) }

/-- The cases with the return values of their teardowns replaced, the case
at position `k` by the `k`-th replacement; cases beyond the replacements
given are kept. -/
def replace_teardown_rets : List CMUnitTest → List (Option Ptr → Int) → List CMUnitTest
  | [], _ => []
  | t :: rest, [] => t :: rest
  | t :: rest, r :: rs => t.with_teardown_ret r :: replace_teardown_rets rest rs

end CMocka

/-! ## `int` arithmetic -/

namespace MathUtils

theorem wrap_of_is_int (x : Int) (h : is_int x) : wrap x = x := by
  unfold is_int INT_MIN INT_MAX at h
  unfold wrap INT_MIN
  omega

theorem is_int_wrap (x : Int) : is_int (wrap x) := by
  unfold is_int wrap INT_MIN INT_MAX
  omega

end MathUtils

namespace CMocka

open MathUtils in
theorem incr_of_lt (x : Int) (h : is_int x) (hlt : x < INT_MAX) : incr x = x + 1 := by
  unfold is_int INT_MIN INT_MAX at *
  unfold incr wrap INT_MIN
  omega

theorem is_int_incr (x : Int) : MathUtils.is_int (incr x) :=
  MathUtils.is_int_wrap _

/-- Incrementing first and then `n` times is incrementing `n + 1` times. -/
theorem counted_incr (x : Int) (n : Nat) : counted (incr x) n = counted x (n + 1) := by
  induction n with
  | zero => rfl
  | succ k ih => simp only [counted, ih]

open MathUtils in
/-- From an `int`, `n` increments give the `int` congruent to `x + n`. -/
theorem counted_eq_wrap (x : Int) (n : Nat) (h : is_int x) : counted x n = wrap (x + n) := by
  induction n with
  | zero => simp [counted, wrap_of_is_int x h]
  | succ k ih =>
    simp only [counted, ih, incr]
    unfold wrap INT_MIN
    push_cast
    omega

open MathUtils in
/-- While the count stays within the `int` range the increments are exact. -/
theorem counted_of_le (x : Int) (n : Nat) (h : is_int x) (hle : x + n ≤ INT_MAX) :
    counted x n = x + n := by
  rw [counted_eq_wrap x n h]
  apply wrap_of_is_int
  unfold is_int INT_MIN INT_MAX at *
  omega

open MathUtils in
theorem int_sub_of_le (a b : Int) (ha : is_int a) (h0 : 0 ≤ b) (hb : b ≤ a) :
    int_sub a b = a - b := by
  unfold is_int INT_MIN INT_MAX at ha
  unfold int_sub wrap INT_MIN
  omega

end CMocka

/-! ## Assertion primitives -/

namespace CMocka

theorem strcmp_eq_zero_iff (a b : CString) : strcmp a b = 0 ↔ text a = text b := by
  induction a generalizing b with
  | nil =>
    cases b with
    | nil => simp [strcmp]
    | cons y ys =>
      by_cases hy : y = 0
      · simp [strcmp, text, List.takeWhile, hy]
      · have : (y : Int) ≠ 0 := by exact_mod_cast hy
        simp [strcmp, text, List.takeWhile, hy, this]
  | cons x xs ih =>
    cases b with
    | nil =>
      by_cases hx : x = 0
      · simp [strcmp, text, List.takeWhile, hx]
      · simp [strcmp, text, List.takeWhile, hx]
    | cons y ys =>
      by_cases hxy : x = y
      · subst hxy
        by_cases hx : x = 0
        · simp [strcmp, text, List.takeWhile, hx]
        · have := ih ys
          simp only [text] at this
          simp [strcmp, text, List.takeWhile, hx, this]
      · have hne : (x : Int) - (y : Int) ≠ 0 := by
          intro h
          apply hxy
          have : (x : Int) = (y : Int) := by omega
          exact_mod_cast this
        by_cases hx : x = 0
        · have hy : y ≠ 0 := fun h => hxy (hx.trans h.symm)
          subst hx
          simp [strcmp, text, List.takeWhile, hxy, hy]
        · by_cases hy : y = 0
          · simp [strcmp, text, List.takeWhile, hxy, hne, hx, hy]
          · simp [strcmp, text, List.takeWhile, hxy, hne, hx, hy]

/-- C5: each assertion primitive terminates the process with a non-zero exit
status exactly when its comparison mismatches, and otherwise returns with the
world, the run counters included, as it found it: `_assert_int_equal` iff
`a ≠ b`, `_assert_int_not_equal` iff `a = b`, `_assert_string_equal` iff the
texts differ, `_assert_string_not_equal` iff they are equal,
`_assert_ptr_equal` iff `a ≠ b`, `_assert_ptr_not_equal` iff `a = b`,
`_assert_true` iff `c = 0`. -/
theorem assert_terminates_iff_mismatch (w : World) (expr file : String) (line : Int) :
    (∀ a b : Int, ((_assert_int_equal a b file line w).terminated ↔ a ≠ b) ∧
        (_assert_int_equal a b file line w = .returned () w ↔ ¬ a ≠ b)) ∧
    (∀ a b : Int, ((_assert_int_not_equal a b file line w).terminated ↔ a = b) ∧
        (_assert_int_not_equal a b file line w = .returned () w ↔ ¬ a = b)) ∧
    (∀ a b : CString, ((_assert_string_equal a b file line w).terminated ↔ text a ≠ text b) ∧
        (_assert_string_equal a b file line w = .returned () w ↔ ¬ text a ≠ text b)) ∧
    (∀ a b : CString, ((_assert_string_not_equal a b file line w).terminated ↔ text a = text b) ∧
        (_assert_string_not_equal a b file line w = .returned () w ↔ ¬ text a = text b)) ∧
    (∀ a b : Ptr, ((_assert_ptr_equal a b file line w).terminated ↔ a ≠ b) ∧
        (_assert_ptr_equal a b file line w = .returned () w ↔ ¬ a ≠ b)) ∧
    (∀ a b : Ptr, ((_assert_ptr_not_equal a b file line w).terminated ↔ a = b) ∧
        (_assert_ptr_not_equal a b file line w = .returned () w ↔ ¬ a = b)) ∧
    (∀ c : Int, ((_assert_true c expr file line w).terminated ↔ c = 0) ∧
        (_assert_true c expr file line w = .returned () w ↔ ¬ c = 0)) := by
  refine ⟨?_, ?_, ?_, ?_, ?_, ?_, ?_⟩
  · intro a b
    unfold _assert_int_equal
    by_cases h : a = b <;> simp [h, fail_with, Outcome.terminated]
  · intro a b
    unfold _assert_int_not_equal
    by_cases h : a = b <;> simp [h, fail_with, Outcome.terminated]
  · intro a b
    unfold _assert_string_equal
    have key := strcmp_eq_zero_iff a b
    by_cases h : strcmp a b = 0
    · simp [h, key.mp h, fail_with, Outcome.terminated]
    · have ht : ¬ text a = text b := fun e => h (key.mpr e)
      simp [h, ht, fail_with, Outcome.terminated]
  · intro a b
    unfold _assert_string_not_equal
    have key := strcmp_eq_zero_iff a b
    by_cases h : strcmp a b = 0
    · simp [h, key.mp h, fail_with, Outcome.terminated]
    · have ht : ¬ text a = text b := fun e => h (key.mpr e)
      simp [h, ht, fail_with, Outcome.terminated]
  · intro a b
    unfold _assert_ptr_equal
    by_cases h : a = b <;> simp [h, fail_with, Outcome.terminated]
  · intro a b
    unfold _assert_ptr_not_equal
    by_cases h : a = b <;> simp [h, fail_with, Outcome.terminated]
  · intro c
    unfold _assert_true
    by_cases h : c = 0 <;> simp [h, fail_with, Outcome.terminated]

/-- An assertion call whose comparison matches returns and changes nothing. -/
theorem exec_of_match (a : AssertCall) (w : World) (h : a.mismatch = false) :
    a.exec w = .returned () w := by
  cases a <;>
    simp_all [AssertCall.exec, AssertCall.mismatch, _assert_true, _assert_int_equal,
      _assert_int_not_equal, _assert_string_equal, _assert_string_not_equal, _assert_ptr_equal,
      _assert_ptr_not_equal, strcmp_eq_zero_iff]

/-- An assertion call whose comparison mismatches prints one line, counts
one failure and exits with status 1. -/
theorem exec_of_mismatch (a : AssertCall) (w : World) (h : a.mismatch = true) :
    ∃ l, a.exec w = .exited 1 ⟨w.tests_run, incr w.tests_failed, w.out ++ [l], w.calls⟩ := by
  cases a <;>
    simp_all [AssertCall.exec, AssertCall.mismatch, _assert_true, _assert_int_equal,
      _assert_int_not_equal, _assert_string_equal, _assert_string_not_equal, _assert_ptr_equal,
      _assert_ptr_not_equal, strcmp_eq_zero_iff, fail_with, printf]

end CMocka

/-! ## The runner: hooks whose assertions all match -/

namespace CMocka

theorem exec_asserts_of_all_match (l : List AssertCall) (w : World)
    (h : l.all (fun a => !a.mismatch) = true) : exec_asserts l w = .returned () w := by
  induction l with
  | nil => rfl
  | cons a rest ih =>
    simp only [List.all_cons, Bool.and_eq_true, Bool.not_eq_true'] at h
    simp only [exec_asserts, exec_of_match a w h.1]
    exact ih h.2

theorem exec_asserts_of_mismatch (l : List AssertCall) (w : World)
    (h : l.all (fun a => !a.mismatch) = false) :
    ∃ d, exec_asserts l w =
      .exited 1 ⟨w.tests_run, incr w.tests_failed, w.out ++ [d], w.calls⟩ := by
  induction l with
  | nil => simp at h
  | cons a rest ih =>
    cases hm : a.mismatch with
    | true =>
      obtain ⟨d, hd⟩ := exec_of_mismatch a w hm
      exact ⟨d, by simp only [exec_asserts, hd]⟩
    | false =>
      have hrest : rest.all (fun a => !a.mismatch) = false := by
        simpa [List.all_cons, hm] using h
      obtain ⟨d, hd⟩ := ih hrest
      exact ⟨d, by simp only [exec_asserts, exec_of_match a w hm, hd]⟩

/-- A hook none of whose assertions mismatches is recorded and returns. -/
theorem invoke_of_passes {ρ : Type} (h : Hook) (arg : Option Ptr) (f : Option Ptr → Invocation ρ)
    (w : World) (hp : (f arg).passes = true) :
    invoke h arg f w =
      .returned ((f arg).ret, (f arg).state)
        ⟨w.tests_run, w.tests_failed, w.out, w.calls ++ [⟨h, arg⟩]⟩ := by
  unfold invoke
  simp only [exec_asserts_of_all_match _ _ hp]

/-- A hook one of whose assertions mismatches is recorded and ends the
process with status 1, one failure counted. -/
theorem invoke_of_fails {ρ : Type} (h : Hook) (arg : Option Ptr) (f : Option Ptr → Invocation ρ)
    (w : World) (hp : (f arg).passes = false) :
    ∃ d, invoke h arg f w =
      .exited 1 ⟨w.tests_run, incr w.tests_failed, w.out ++ [d], w.calls ++ [⟨h, arg⟩]⟩ := by
  unfold invoke
  obtain ⟨d, hd⟩ := exec_asserts_of_mismatch (f arg).asserts
    ⟨w.tests_run, w.tests_failed, w.out, w.calls ++ [⟨h, arg⟩]⟩ hp
  exact ⟨d, by simp only [hd]⟩

/-- What one loop iteration does when no assertion of the case fails. -/
theorem run_test_of_no_assertion_fails (i : Nat) (t : CMUnitTest) (w : World)
    (h : t.no_assertion_fails = true) :
    run_test i t w =
      .returned () ⟨incr w.tests_run,
        if t.setup_fails then incr w.tests_failed else w.tests_failed,
        w.out ++ case_lines t, w.calls ++ case_calls i t⟩ := by
  obtain ⟨name, test_func, setup_func, teardown_func, initial_state⟩ := t
  cases setup_func with
  | none =>
    simp only [CMUnitTest.no_assertion_fails, asserts_pass, CMUnitTest.setup_fails, succeeds,
      CMUnitTest.body_state, CMUnitTest.teardown_state, Bool.not_true, Bool.false_or,
      Bool.true_and, Bool.and_eq_true] at h
    cases teardown_func with
    | none =>
      simp [run_test, run_body, printf, invoke_of_passes _ _ _ _ h.1, case_lines, case_calls,
        fixture_call, CMUnitTest.setup_fails, succeeds, CMUnitTest.body_state]
    | some td =>
      simp only [asserts_pass] at h
      simp [run_test, run_body, printf, invoke_of_passes _ _ _ _ h.1,
        invoke_of_passes _ _ td _ h.2, case_lines, case_calls,
        fixture_call, CMUnitTest.setup_fails, succeeds, CMUnitTest.body_state,
        CMUnitTest.teardown_state]
  | some su =>
    simp only [CMUnitTest.no_assertion_fails, asserts_pass, CMUnitTest.setup_fails, succeeds,
      CMUnitTest.body_state, CMUnitTest.teardown_state, Bool.and_eq_true, Bool.or_eq_true,
      Bool.not_eq_true', beq_eq_false_iff_ne, ne_eq] at h
    obtain ⟨hsu, hrest⟩ := h
    by_cases hrc : (su (some initial_state)).ret = 0
    · have hb := hrest.resolve_left (fun hne => hne hrc)
      cases teardown_func with
      | none =>
        simp [run_test, run_body, printf, invoke_of_passes _ _ su _ hsu,
          invoke_of_passes _ _ _ _ hb.1, hrc, case_lines, case_calls,
          fixture_call, CMUnitTest.setup_fails, succeeds, CMUnitTest.body_state]
      | some td =>
        simp only [asserts_pass] at hb
        simp [run_test, run_body, printf, invoke_of_passes _ _ su _ hsu,
          invoke_of_passes _ _ _ _ hb.1, invoke_of_passes _ _ td _ hb.2, hrc, case_lines,
          case_calls, fixture_call, CMUnitTest.setup_fails, succeeds, CMUnitTest.body_state,
          CMUnitTest.teardown_state]
    · simp [run_test, printf, invoke_of_passes _ _ su _ hsu, hrc, case_lines, case_calls,
        fixture_call, CMUnitTest.setup_fails, succeeds]

end CMocka

namespace CMocka

theorem failed_setups_cons (t : CMUnitTest) (rest : List CMUnitTest) :
    failed_setups (t :: rest) = failed_setups rest + (if t.setup_fails then 1 else 0) := by
  unfold failed_setups
  cases h : t.setup_fails <;> simp [List.filter_cons, h]

/-- The loop over cases none of whose assertions fails. -/
theorem run_tests_of_no_assertion_fails (tests : List CMUnitTest) (i : Nat) (w : World)
    (h : ∀ t ∈ tests, t.no_assertion_fails = true) :
    run_tests i tests w =
      .returned () ⟨counted w.tests_run tests.length,
        counted w.tests_failed (failed_setups tests),
        w.out ++ cases_lines tests, w.calls ++ cases_calls i tests⟩ := by
  induction tests generalizing i w with
  | nil => simp [run_tests, failed_setups, cases_lines, cases_calls, counted]
  | cons t rest ih =>
    have ht := h t (List.mem_cons_self _ _)
    have hrest : ∀ t ∈ rest, t.no_assertion_fails = true :=
      fun u hu => h u (List.mem_cons_of_mem _ hu)
    simp only [run_tests, run_test_of_no_assertion_fails i t w ht, ih (i + 1) _ hrest,
      failed_setups_cons, cases_lines, cases_calls, List.length_cons, List.append_assoc,
      Outcome.returned.injEq, World.mk.injEq, and_true, true_and, counted_incr]
    cases t.setup_fails
    · simp
    · simp [counted_incr]

/-- The loop over a list in two parts is the loop over the first part
followed, unless the process was terminated, by the loop over the second. -/
theorem run_tests_append (pre post : List CMUnitTest) (i : Nat) (w : World) :
    run_tests i (pre ++ post) w =
      match run_tests i pre w with
      | .exited s w => .exited s w
      | .returned _ w => run_tests (i + pre.length) post w := by
  induction pre generalizing i w with
  | nil => simp [run_tests]
  | cons t rest ih =>
    simp only [List.cons_append, run_tests, List.length_cons]
    cases run_test i t w with
    | exited s w1 => rfl
    | returned v w1 =>
      have hidx : i + 1 + rest.length = i + (rest.length + 1) := by omega
      have := ih (i + 1) w1
      rw [hidx] at this
      exact this

/-- The end of a run whose group teardown (if any) fails no assertion. -/
theorem finish_of_asserts_pass (group_teardown : Option CMFixtureFunction) (w : World)
    (h : asserts_pass group_teardown none = true) :
    finish group_teardown w =
      .returned w.tests_failed ⟨w.tests_run, w.tests_failed,
        w.out ++ summary_lines w.tests_run w.tests_failed,
        w.calls ++ fixture_call .group_teardown group_teardown none⟩ := by
  cases group_teardown with
  | none =>
    by_cases hf : w.tests_failed > 0 <;>
      simp [finish, printf, summary_lines, fixture_call, hf]
  | some f =>
    simp only [asserts_pass] at h
    by_cases hf : w.tests_failed > 0 <;>
      simp [finish, printf, summary_lines, fixture_call, hf, invoke_of_passes _ _ f _ h]

/-- A whole run in which the group setup succeeds and no assertion fails. -/
theorem run_group_of_no_assertion_fails (group_name : String) (tests : List CMUnitTest)
    (group_setup group_teardown : Option CMFixtureFunction) (w : World)
    (hgs : succeeds group_setup none = true)
    (hgsa : asserts_pass group_setup none = true)
    (hgta : asserts_pass group_teardown none = true)
    (h : ∀ t ∈ tests, t.no_assertion_fails = true) :
    _cmocka_run_group_tests group_name tests group_setup group_teardown w =
      .returned (counted w.tests_failed (failed_setups tests))
        ⟨counted w.tests_run tests.length, counted w.tests_failed (failed_setups tests),
          w.out ++ .running tests.length group_name :: cases_lines tests ++
            summary_lines (counted w.tests_run tests.length)
              (counted w.tests_failed (failed_setups tests)),
          w.calls ++ group_calls tests group_setup group_teardown⟩ := by
  cases group_setup with
  | none =>
    simp [_cmocka_run_group_tests, printf, run_tests_of_no_assertion_fails tests 0 _ h,
      finish_of_asserts_pass group_teardown _ hgta, group_calls, fixture_call]
  | some gs =>
    simp only [asserts_pass] at hgsa
    simp only [succeeds, beq_iff_eq] at hgs
    simp [_cmocka_run_group_tests, printf, invoke_of_passes _ _ gs _ hgsa, hgs,
      run_tests_of_no_assertion_fails tests 0 _ h,
      finish_of_asserts_pass group_teardown _ hgta, group_calls, fixture_call]

end CMocka

/-! ## Runs in which no assertion fails -/

namespace CMocka

end CMocka

/-! ## Group setup failure, and the failed count -/

namespace CMocka

/-- C4: if the group setup hook is present and returns non-zero, the run
returns 1, a non-zero value, having called the group setup only: no setup,
body or teardown of any case is called, and `tests_run` and `tests_failed`
are as they were. -/
theorem group_setup_failure_aborts (group_name : String) (tests : List CMUnitTest)
    (f : CMFixtureFunction) (group_teardown : Option CMFixtureFunction) (w : World)
    (hret : (f none).ret ≠ 0) (hpass : (f none).passes = true) :
    _cmocka_run_group_tests group_name tests (some f) group_teardown w =
      .returned 1 ⟨w.tests_run, w.tests_failed,
        w.out ++ [.running tests.length group_name, .group_setup_failed],
        w.calls ++ [⟨.group_setup, none⟩]⟩ := by
  simp [_cmocka_run_group_tests, printf, invoke_of_passes _ _ f _ hpass, hret]

/-- C4, at a run of two cases whose group setup returns 1. -/
theorem group_setup_failure_aborts_witness :
    _cmocka_run_group_tests "tests" [Sample.case_plain, Sample.case_full]
        (some Sample.setup_refuses) (some Sample.setup) World.fresh =
      .returned 1 ⟨0, 0, [] ++ [.running 2 "tests", .group_setup_failed],
        [] ++ [⟨.group_setup, none⟩]⟩ :=
  group_setup_failure_aborts "tests" [Sample.case_plain, Sample.case_full]
    Sample.setup_refuses (some Sample.setup) World.fresh (by decide) (by decide)

end CMocka

/-! ## The prescribed order of hook calls -/

namespace CMocka

theorem mem_fixture_call (h : Hook) (f : Option CMFixtureFunction) (arg : Option Ptr) (c : Call)
    (hc : c ∈ fixture_call h f arg) : c = ⟨h, arg⟩ ∧ f.isSome = true := by
  cases f with
  | none => simp [fixture_call] at hc
  | some g => simpa [fixture_call] using hc

theorem mem_case_calls (i : Nat) (t : CMUnitTest) (c : Call) (hc : c ∈ case_calls i t) :
    c.hook.index = some i := by
  simp only [case_calls, List.mem_append] at hc
  rcases hc with hc | hc
  · rw [(mem_fixture_call _ _ _ _ hc).1]; rfl
  · split at hc
    · simp at hc
    · rcases List.mem_cons.mp hc with hc | hc
      · rw [hc]; rfl
      · rw [(mem_fixture_call _ _ _ _ hc).1]; rfl

theorem mem_cases_calls (tests : List CMUnitTest) (i : Nat) (c : Call)
    (hc : c ∈ cases_calls i tests) :
    ∃ j, i ≤ j ∧ j < i + tests.length ∧ c.hook.index = some j := by
  induction tests generalizing i with
  | nil => simp [cases_calls] at hc
  | cons t rest ih =>
    simp only [cases_calls, List.mem_append] at hc
    rcases hc with hc | hc
    · exact ⟨i, le_refl _, by simp, mem_case_calls i t c hc⟩
    · obtain ⟨j, h1, h2, h3⟩ := ih (i + 1) hc
      exact ⟨j, by omega, by simp only [List.length_cons]; omega, h3⟩

theorem case_calls_ne_nil (i : Nat) (t : CMUnitTest) : case_calls i t ≠ [] := by
  obtain ⟨name, test_func, setup_func, teardown_func, initial_state⟩ := t
  cases setup_func with
  | none => simp [case_calls, fixture_call, CMUnitTest.setup_fails, succeeds]
  | some f => simp [case_calls, fixture_call]

theorem case_calls_subset_cases_calls (tests : List CMUnitTest) (i j : Nat) (u : CMUnitTest)
    (hu : tests[j]? = some u) (c : Call) (hc : c ∈ case_calls (i + j) u) :
    c ∈ cases_calls i tests := by
  induction tests generalizing i j with
  | nil => simp at hu
  | cons t rest ih =>
    simp only [cases_calls, List.mem_append]
    cases j with
    | zero =>
      simp only [List.getElem?_cons_zero, Option.some.injEq] at hu
      subst hu
      exact Or.inl hc
    | succ k =>
      simp only [List.getElem?_cons_succ] at hu
      have hidx : i + (k + 1) = i + 1 + k := by omega
      rw [hidx] at hc
      exact Or.inr (ih (i + 1) k hu hc)

end CMocka

/-! ## A setup hook that returns non-zero -/

namespace CMocka

theorem hook_ne_of_index (c : Call) (i j : Nat) (h : c.hook.index = some j) (hne : j ≠ i) :
    c.hook ≠ .setup i ∧ c.hook ≠ .test i ∧ c.hook ≠ .teardown i := by
  refine ⟨?_, ?_, ?_⟩ <;>
  · intro hc
    rw [hc] at h
    simp only [Hook.index, Option.some.injEq] at h
    exact hne h.symm

end CMocka

/-! ## A body that fails an assertion -/

namespace CMocka

/-- The iteration of a case whose body fails an assertion ends the process
inside the body. -/
theorem run_test_of_body_fails (i : Nat) (t : CMUnitTest) (w : World)
    (hsa : asserts_pass t.setup_func (some t.initial_state) = true)
    (hsu : t.setup_fails = false)
    (hbody : (t.test_func (some t.body_state)).passes = false) :
    ∃ d, run_test i t w =
      .exited 1 ⟨incr w.tests_run, incr w.tests_failed, w.out ++ [.run t.name, d],
        w.calls ++ (fixture_call (.setup i) t.setup_func (some t.initial_state) ++
          [⟨.test i, some t.body_state⟩])⟩ := by
  obtain ⟨name, test_func, setup_func, teardown_func, initial_state⟩ := t
  cases setup_func with
  | none =>
    simp only [CMUnitTest.body_state] at hbody
    obtain ⟨d, hd⟩ := invoke_of_fails (.test i) (some initial_state) test_func
      ⟨incr w.tests_run, w.tests_failed, w.out ++ [.run name], w.calls⟩ hbody
    exact ⟨d, by simp [run_test, run_body, printf, hd, fixture_call, CMUnitTest.body_state]⟩
  | some su =>
    simp only [CMUnitTest.body_state] at hbody
    simp only [asserts_pass] at hsa
    simp only [CMUnitTest.setup_fails, succeeds, Bool.not_eq_false', beq_iff_eq] at hsu
    obtain ⟨d, hd⟩ := invoke_of_fails (.test i) (some (su (some initial_state)).state) test_func
      ⟨incr w.tests_run, w.tests_failed, w.out ++ [.run name],
        w.calls ++ [⟨.setup i, some initial_state⟩]⟩ hbody
    exact ⟨d, by simp [run_test, run_body, printf, invoke_of_passes _ _ su _ hsa, hsu, hd,
      fixture_call, CMUnitTest.body_state]⟩

/-- C3: when the run reaches the body of case `i` (group setup succeeded, no
earlier hook failed an assertion, the setup of case `i` did not fail) and that
body fails an assertion, the process is terminated with exit status 1,
whatever the counters were when the run started, and the body of case `i` is
the last hook called: not the teardown of case `i`, no hook of a later case,
not the group teardown. -/
theorem failing_body_terminates_process (group_name : String) (pre post : List CMUnitTest)
    (t : CMUnitTest) (group_setup group_teardown : Option CMFixtureFunction) (w0 : World)
    (hgs : succeeds group_setup none = true)
    (hgsa : asserts_pass group_setup none = true)
    (hpre : ∀ u ∈ pre, u.no_assertion_fails = true)
    (hsa : asserts_pass t.setup_func (some t.initial_state) = true)
    (hsu : t.setup_fails = false)
    (hbody : (t.test_func (some t.body_state)).passes = false) :
    ∃ w new,
      _cmocka_run_group_tests group_name (pre ++ t :: post) group_setup group_teardown w0 =
        .exited 1 w ∧
      w.calls = w0.calls ++ new ∧
      new = fixture_call .group_setup group_setup none ++ cases_calls 0 pre ++
          fixture_call (.setup pre.length) t.setup_func (some t.initial_state) ++
          [⟨.test pre.length, some t.body_state⟩] ∧
      (∀ c ∈ new, c.hook ≠ .teardown pre.length ∧ c.hook ≠ .group_teardown ∧
        ∀ j, pre.length < j → c.hook.index ≠ some j) := by
  have hloop : ∀ w1 : World, ∃ d, run_tests 0 (pre ++ t :: post) w1 =
      .exited 1 ⟨incr (counted w1.tests_run pre.length),
        incr (counted w1.tests_failed (failed_setups pre)),
        w1.out ++ cases_lines pre ++ [.run t.name, d],
        w1.calls ++ (cases_calls 0 pre ++
          fixture_call (.setup pre.length) t.setup_func (some t.initial_state) ++
          [⟨.test pre.length, some t.body_state⟩])⟩ := by
    intro w1
    obtain ⟨d, hd⟩ := run_test_of_body_fails pre.length t
      ⟨counted w1.tests_run pre.length, counted w1.tests_failed (failed_setups pre),
        w1.out ++ cases_lines pre, w1.calls ++ cases_calls 0 pre⟩ hsa hsu hbody
    refine ⟨d, ?_⟩
    rw [run_tests_append, run_tests_of_no_assertion_fails pre 0 w1 hpre]
    simp [run_tests, hd]
  have hmem : ∀ c ∈ fixture_call .group_setup group_setup none ++ cases_calls 0 pre ++
      fixture_call (.setup pre.length) t.setup_func (some t.initial_state) ++
      [⟨.test pre.length, some t.body_state⟩],
      c.hook ≠ .teardown pre.length ∧ c.hook ≠ .group_teardown ∧
        ∀ j, pre.length < j → c.hook.index ≠ some j := by
    intro c hc
    simp only [List.mem_append, List.mem_singleton] at hc
    rcases hc with ((hc | hc) | hc) | hc
    · rw [(mem_fixture_call _ _ _ _ hc).1]; simp [Hook.index]
    · obtain ⟨j, _, h2, h3⟩ := mem_cases_calls pre 0 c hc
      refine ⟨(hook_ne_of_index c pre.length j h3 (by omega)).2.2, ?_, ?_⟩
      · intro h; rw [h] at h3; simp [Hook.index] at h3
      · intro k hk h; rw [h3] at h; simp only [Option.some.injEq] at h; omega
    · rw [(mem_fixture_call _ _ _ _ hc).1]
      refine ⟨by simp, by simp, ?_⟩
      intro k hk h; simp only [Hook.index, Option.some.injEq] at h; omega
    · rw [hc]
      refine ⟨by simp, by simp, ?_⟩
      intro k hk h; simp only [Hook.index, Option.some.injEq] at h; omega
  cases group_setup with
  | none =>
    obtain ⟨d, hd⟩ := hloop ⟨w0.tests_run, w0.tests_failed,
      w0.out ++ [.running (pre ++ t :: post).length group_name], w0.calls⟩
    have hrun : _cmocka_run_group_tests group_name (pre ++ t :: post) none group_teardown w0 =
        .exited 1 ⟨incr (counted w0.tests_run pre.length),
          incr (counted w0.tests_failed (failed_setups pre)),
          w0.out ++ [.running (pre ++ t :: post).length group_name] ++ cases_lines pre ++
            [.run t.name, d],
          w0.calls ++ (fixture_call .group_setup none none ++ cases_calls 0 pre ++
            fixture_call (.setup pre.length) t.setup_func (some t.initial_state) ++
            [⟨.test pre.length, some t.body_state⟩])⟩ := by
      simp only [_cmocka_run_group_tests, printf, hd]
      simp [fixture_call]
    exact ⟨_, _, hrun, rfl, rfl, hmem⟩
  | some gs =>
    simp only [asserts_pass] at hgsa
    simp only [succeeds, beq_iff_eq] at hgs
    obtain ⟨d, hd⟩ := hloop ⟨w0.tests_run, w0.tests_failed,
      w0.out ++ [.running (pre ++ t :: post).length group_name],
      w0.calls ++ [⟨.group_setup, none⟩]⟩
    have hrun : _cmocka_run_group_tests group_name (pre ++ t :: post) (some gs) group_teardown
          w0 =
        .exited 1 ⟨incr (counted w0.tests_run pre.length),
          incr (counted w0.tests_failed (failed_setups pre)),
          w0.out ++ [.running (pre ++ t :: post).length group_name] ++ cases_lines pre ++
            [.run t.name, d],
          w0.calls ++ (fixture_call .group_setup (some gs) none ++ cases_calls 0 pre ++
            fixture_call (.setup pre.length) t.setup_func (some t.initial_state) ++
            [⟨.test pre.length, some t.body_state⟩])⟩ := by
      simp only [_cmocka_run_group_tests, printf, invoke_of_passes _ _ gs _ hgsa, hgs, hd]
      simp [fixture_call]
    exact ⟨_, _, hrun, rfl, rfl, hmem⟩

end CMocka

namespace CMocka

/-- C3, at a run of three cases, started with counters 5 and 2, in which the
body of the middle case fails its second assertion. -/
theorem failing_body_terminates_process_witness :
    ∃ w new,
      _cmocka_run_group_tests "tests"
          ([Sample.case_full] ++ Sample.case_broken :: [Sample.case_plain])
          (some Sample.setup) (some Sample.setup) ⟨5, 2, [], []⟩ =
        .exited 1 w ∧
      w.calls = (⟨5, 2, [], []⟩ : World).calls ++ new ∧
      new = fixture_call .group_setup (some Sample.setup) none ++
          cases_calls 0 [Sample.case_full] ++
          fixture_call (.setup [Sample.case_full].length) Sample.case_broken.setup_func
            (some Sample.case_broken.initial_state) ++
          [⟨.test [Sample.case_full].length, some Sample.case_broken.body_state⟩] ∧
      (∀ c ∈ new, c.hook ≠ .teardown [Sample.case_full].length ∧ c.hook ≠ .group_teardown ∧
        ∀ j, [Sample.case_full].length < j → c.hook.index ≠ some j) :=
  failing_body_terminates_process "tests" [Sample.case_full] [Sample.case_plain]
    Sample.case_broken (some Sample.setup) (some Sample.setup) ⟨5, 2, [], []⟩
    (by decide) (by decide) (by decide) (by decide) (by decide) (by decide)

end CMocka

/-! ## The sequence of hook calls of a run -/

namespace CMocka

theorem countP_test_case_calls_le (i j : Nat) (t : CMUnitTest) :
    (case_calls j t).countP (fun c => decide (c.hook = .test i)) ≤ 1 := by
  obtain ⟨name, test_func, setup_func, teardown_func, initial_state⟩ := t
  cases setup_func <;> cases teardown_func <;>
    simp only [case_calls, fixture_call] <;> split <;>
    simp [List.countP_cons] <;> split <;> omega

theorem countP_test_eq_zero (l : List Call) (i : Nat)
    (h : ∀ c ∈ l, ∃ j, j ≠ i ∧ c.hook.index = some j) :
    l.countP (fun c => decide (c.hook = .test i)) = 0 := by
  rw [List.countP_eq_zero]
  intro c hc
  obtain ⟨j, hj, hidx⟩ := h c hc
  simpa using (hook_ne_of_index c i j hidx hj).2.1

theorem countP_test_cases_calls_le (tests : List CMUnitTest) (i k : Nat) :
    (cases_calls k tests).countP (fun c => decide (c.hook = .test i)) ≤ 1 := by
  induction tests generalizing k with
  | nil => simp [cases_calls]
  | cons t rest ih =>
    simp only [cases_calls, List.countP_append]
    by_cases hik : k = i
    · have hz := countP_test_eq_zero (cases_calls (k + 1) rest) i (by
        intro c hc
        obtain ⟨j, h1, _, h3⟩ := mem_cases_calls rest (k + 1) c hc
        exact ⟨j, by omega, h3⟩)
      have := countP_test_case_calls_le i k t
      omega
    · have hz := countP_test_eq_zero (case_calls k t) i (by
        intro c hc
        exact ⟨k, hik, mem_case_calls k t c hc⟩)
      have := ih (k + 1)
      omega

theorem countP_test_fixture_call (h : Hook) (f : Option CMFixtureFunction) (arg : Option Ptr)
    (i : Nat) (hh : h ≠ .test i) :
    (fixture_call h f arg).countP (fun c => decide (c.hook = .test i)) = 0 := by
  cases f <;> simp [fixture_call, hh]

/-- A call recorded for the cases that carries index `k + j` belongs to the
calls of the case at position `j`. -/
theorem mem_case_calls_of_index (tests : List CMUnitTest) (k j : Nat) (t : CMUnitTest)
    (ht : tests[j]? = some t) (c : Call) (hc : c ∈ cases_calls k tests)
    (hidx : c.hook.index = some (k + j)) : c ∈ case_calls (k + j) t := by
  induction tests generalizing k j with
  | nil => simp at ht
  | cons u rest ih =>
    simp only [cases_calls, List.mem_append] at hc
    cases j with
    | zero =>
      simp only [List.getElem?_cons_zero, Option.some.injEq] at ht
      subst ht
      rcases hc with hc | hc
      · exact hc
      · obtain ⟨m, h1, _, h3⟩ := mem_cases_calls rest (k + 1) c hc
        rw [h3] at hidx
        simp only [Option.some.injEq] at hidx
        omega
    | succ m =>
      simp only [List.getElem?_cons_succ] at ht
      have hidx2 : k + (m + 1) = k + 1 + m := by omega
      rcases hc with hc | hc
      · have := mem_case_calls k u c hc
        rw [this] at hidx
        simp only [Option.some.injEq] at hidx
        omega
      · rw [hidx2] at hidx ⊢
        exact ih (k + 1) m ht hc hidx

/-- Within the calls of one case, a body call is followed by the teardown
call when a teardown is present. -/
theorem teardown_mem_case_calls (i : Nat) (t : CMUnitTest) (c : Call)
    (hc : c ∈ case_calls i t) (hbody : c.hook = .test i) (htd : t.teardown_func.isSome = true) :
    (⟨.teardown i, some t.teardown_state⟩ : Call) ∈ case_calls i t := by
  obtain ⟨td, htd⟩ := Option.isSome_iff_exists.mp htd
  simp only [case_calls, List.mem_append] at hc ⊢
  rcases hc with hc | hc
  · have := (mem_fixture_call _ _ _ _ hc).1
    rw [this] at hbody
    simp at hbody
  · right
    split at hc
    · simp at hc
    · rename_i hsf
      simp [hsf, htd, fixture_call]

/-- C9: with a succeeding (or absent) group setup and no failing assertion,
the hook calls made by the run are exactly the prescribed sequence: group
setup (if present); for each case in the order given its setup (if present),
then, unless that setup returned non-zero, its body followed by its teardown
(if present); then group teardown (if present).  Every body is called at most
once, and the teardown of a case whose body was called is called. -/
theorem hook_calls_follow_prescribed_order (group_name : String) (tests : List CMUnitTest)
    (group_setup group_teardown : Option CMFixtureFunction) (w : World)
    (hgs : succeeds group_setup none = true)
    (hgsa : asserts_pass group_setup none = true)
    (hgta : asserts_pass group_teardown none = true)
    (hassert : ∀ t ∈ tests, t.no_assertion_fails = true) :
    ∃ v w' new,
      _cmocka_run_group_tests group_name tests group_setup group_teardown w = .returned v w' ∧
      w'.calls = w.calls ++ new ∧
      new = group_calls tests group_setup group_teardown ∧
      (∀ i, new.countP (fun c => decide (c.hook = .test i)) ≤ 1) ∧
      (∀ i t c, tests[i]? = some t → c ∈ new → c.hook = .test i →
        t.teardown_func.isSome = true →
        (⟨.teardown i, some t.teardown_state⟩ : Call) ∈ new) := by
  have hrun := run_group_of_no_assertion_fails group_name tests group_setup group_teardown w
    hgs hgsa hgta hassert
  refine ⟨_, _, _, hrun, rfl, rfl, ?_, ?_⟩
  · intro i
    simp only [group_calls, List.countP_append]
    have h1 := countP_test_fixture_call .group_setup group_setup none i (by simp)
    have h2 := countP_test_fixture_call .group_teardown group_teardown none i (by simp)
    have h3 := countP_test_cases_calls_le tests i 0
    omega
  · intro i t c ht hc hbody htd
    simp only [group_calls, List.mem_append] at hc ⊢
    rcases hc with (hc | hc) | hc
    · rw [(mem_fixture_call _ _ _ _ hc).1] at hbody
      simp at hbody
    · have hidx : c.hook.index = some (0 + i) := by rw [hbody]; simp [Hook.index]
      have hmem := mem_case_calls_of_index tests 0 i t ht c hc hidx
      rw [Nat.zero_add] at hmem
      have := teardown_mem_case_calls i t c hmem hbody htd
      refine Or.inl (Or.inr ?_)
      have h := case_calls_subset_cases_calls tests 0 i t ht _ (by rw [Nat.zero_add]; exact this)
      exact h
    · rw [(mem_fixture_call _ _ _ _ hc).1] at hbody
      simp at hbody

/-- C9, at a run with group fixtures and three cases, one with a setup that
returns 1. -/
theorem hook_calls_follow_prescribed_order_witness :
    ∃ v w' new,
      _cmocka_run_group_tests "tests"
          [Sample.case_full, Sample.case_refused, Sample.case_plain]
          (some Sample.setup) (some Sample.setup) World.fresh = .returned v w' ∧
      w'.calls = World.fresh.calls ++ new ∧
      new = group_calls [Sample.case_full, Sample.case_refused, Sample.case_plain]
        (some Sample.setup) (some Sample.setup) ∧
      (∀ i, new.countP (fun c => decide (c.hook = .test i)) ≤ 1) ∧
      (∀ i t c, [Sample.case_full, Sample.case_refused, Sample.case_plain][i]? = some t →
        c ∈ new → c.hook = .test i → t.teardown_func.isSome = true →
        (⟨.teardown i, some t.teardown_state⟩ : Call) ∈ new) :=
  hook_calls_follow_prescribed_order "tests"
    [Sample.case_full, Sample.case_refused, Sample.case_plain]
    (some Sample.setup) (some Sample.setup) World.fresh
    (by decide) (by decide) (by decide) (by decide)

end CMocka

/-! ## Runs that return, and consecutive runs -/

namespace CMocka

/-- An iteration in which a reached hook fails an assertion ends the
process. -/
theorem run_test_of_assertion_fails (i : Nat) (t : CMUnitTest) (w : World)
    (h : t.no_assertion_fails = false) : ∃ w', run_test i t w = .exited 1 w' := by
  cases hsa : asserts_pass t.setup_func (some t.initial_state) with
  | false =>
    obtain ⟨name, test_func, setup_func, teardown_func, initial_state⟩ := t
    cases setup_func with
    | none => simp [asserts_pass] at hsa
    | some su =>
      simp only [asserts_pass] at hsa
      obtain ⟨d, hd⟩ := invoke_of_fails (.setup i) (some initial_state) su
        ⟨incr w.tests_run, w.tests_failed, w.out ++ [.run name], w.calls⟩ hsa
      apply Exists.intro
      simp only [run_test, printf, hd]
      rfl
  | true =>
    simp only [CMUnitTest.no_assertion_fails, hsa, Bool.true_and, Bool.or_eq_false_iff,
      Bool.and_eq_false_iff] at h
    obtain ⟨hsu, hrest⟩ := h
    cases hb : (t.test_func (some t.body_state)).passes with
    | false =>
      obtain ⟨d, hd⟩ := run_test_of_body_fails i t w hsa hsu hb
      exact ⟨_, hd⟩
    | true =>
      have htd := hrest.resolve_left (by simp [hb])
      obtain ⟨name, test_func, setup_func, teardown_func, initial_state⟩ := t
      cases teardown_func with
      | none => simp [asserts_pass] at htd
      | some td =>
        simp only [asserts_pass, CMUnitTest.teardown_state] at htd
        cases setup_func with
        | none =>
          simp only [CMUnitTest.body_state] at hb htd
          obtain ⟨d, hd⟩ := invoke_of_fails (.teardown i)
            (some (test_func (some initial_state)).state) td
            ⟨incr w.tests_run, w.tests_failed, w.out ++ [.run name],
              w.calls ++ [⟨.test i, some initial_state⟩]⟩ htd
          apply Exists.intro
          simp only [run_test, run_body, printf, invoke_of_passes _ _ _ _ hb, hd]
          rfl
        | some su =>
          simp only [CMUnitTest.body_state] at hb htd
          simp only [asserts_pass] at hsa
          simp only [CMUnitTest.setup_fails, succeeds, Bool.not_eq_false', beq_iff_eq] at hsu
          obtain ⟨d, hd⟩ := invoke_of_fails (.teardown i)
            (some (test_func (some (su (some initial_state)).state)).state) td
            ⟨incr w.tests_run, w.tests_failed, w.out ++ [.run name],
              w.calls ++ [⟨.setup i, some initial_state⟩,
                ⟨.test i, some (su (some initial_state)).state⟩]⟩ htd
          apply Exists.intro
          simp [run_test, run_body, printf, invoke_of_passes _ _ su _ hsa, hsu,
            invoke_of_passes _ _ test_func _ hb, hd]
          rfl

/-- A loop that returns ran only cases none of whose reached hooks fails an
assertion. -/
theorem no_assertion_fails_of_run_tests_returned (tests : List CMUnitTest) (i : Nat)
    (w w' : World) (v : Unit) (h : run_tests i tests w = .returned v w') :
    ∀ t ∈ tests, t.no_assertion_fails = true := by
  induction tests generalizing i w with
  | nil => simp
  | cons t rest ih =>
    cases ht : t.no_assertion_fails with
    | false =>
      obtain ⟨w1, h1⟩ := run_test_of_assertion_fails i t w ht
      simp [run_tests, h1] at h
    | true =>
      rw [run_tests, run_test_of_no_assertion_fails i t w ht] at h
      intro u hu
      rcases List.mem_cons.mp hu with hu | hu
      · rw [hu]; exact ht
      · exact ih (i + 1) _ h u hu

theorem finish_of_assertion_fails (group_teardown : Option CMFixtureFunction) (w : World)
    (h : asserts_pass group_teardown none = false) :
    ∃ w', finish group_teardown w = .exited 1 w' := by
  cases group_teardown with
  | none => simp [asserts_pass] at h
  | some f =>
    simp only [asserts_pass] at h
    obtain ⟨d, hd⟩ := invoke_of_fails .group_teardown none f w h
    apply Exists.intro
    simp only [finish, hd]
    rfl

/-- A call of the runner that returns after a group setup that is absent or
returned 0 had no assertion failing. -/
theorem no_assertion_fails_of_returned (g : GroupRun) (w w' : World) (v : Int)
    (h : g.call w = .returned v w') (hgs : succeeds g.group_setup none = true) :
    g.no_assertion_fails = true := by
  obtain ⟨group_name, tests, group_setup, group_teardown⟩ := g
  simp only [GroupRun.call] at h
  simp only at hgs
  have hloop : ∀ w1 : World,
      (match run_tests 0 tests w1 with
        | .exited s w => (.exited s w : Outcome Int)
        | .returned _ w => finish group_teardown w) = .returned v w' →
      asserts_pass group_teardown none = true ∧ ∀ t ∈ tests, t.no_assertion_fails = true := by
    intro w1 h1
    cases hr : run_tests 0 tests w1 with
    | exited s w2 => simp [hr] at h1
    | returned u w2 =>
      rw [hr] at h1
      simp only at h1
      refine ⟨?_, no_assertion_fails_of_run_tests_returned tests 0 w1 w2 u hr⟩
      cases hta : asserts_pass group_teardown none with
      | true => rfl
      | false =>
        obtain ⟨w3, h3⟩ := finish_of_assertion_fails group_teardown w2 hta
        rw [h3] at h1
        simp at h1
  cases group_setup with
  | none =>
    simp only [_cmocka_run_group_tests] at h
    obtain ⟨h1, h2⟩ := hloop _ h
    simp only [GroupRun.no_assertion_fails, Bool.and_eq_true, List.all_eq_true]
    exact ⟨⟨⟨rfl, rfl⟩, h1⟩, h2⟩
  | some gs =>
    cases hp : (gs none).passes with
    | false =>
      obtain ⟨d, hd⟩ := invoke_of_fails .group_setup none gs
        (printf (.running tests.length group_name) w) hp
      simp [_cmocka_run_group_tests, hd] at h
    | true =>
      have hrc : (gs none).ret = 0 := by simpa [succeeds] using hgs
      simp only [_cmocka_run_group_tests, invoke_of_passes _ _ gs _ hp, hrc, ne_eq,
        not_true_eq_false, if_false] at h
      obtain ⟨h1, h2⟩ := hloop _ h
      simp only [GroupRun.no_assertion_fails, Bool.and_eq_true, List.all_eq_true]
      exact ⟨⟨⟨hgs, hp⟩, h1⟩, h2⟩

/-- A call of the runner in which the group setup succeeds and no assertion
fails, started in any world. -/
theorem call_of_no_assertion_fails (g : GroupRun) (w : World)
    (h : g.no_assertion_fails = true) :
    g.call w = .returned (counted w.tests_failed (failed_setups g.tests))
      ⟨counted w.tests_run g.tests.length, counted w.tests_failed (failed_setups g.tests),
        w.out ++ .running g.tests.length g.group_name :: cases_lines g.tests ++
          summary_lines (counted w.tests_run g.tests.length)
            (counted w.tests_failed (failed_setups g.tests)),
        w.calls ++ group_calls g.tests g.group_setup g.group_teardown⟩ := by
  simp only [GroupRun.no_assertion_fails, Bool.and_eq_true, List.all_eq_true] at h
  obtain ⟨⟨⟨h1, h2⟩, h3⟩, h4⟩ := h
  exact run_group_of_no_assertion_fails g.group_name g.tests g.group_setup g.group_teardown w
    h1 h2 h3 h4

end CMocka

namespace CMocka

/-- C8 as stated fails: a run aborted by a failing group setup returns 1,
not the failed count (which is 0), and never calls the group teardown that
was provided. -/
theorem aborted_run_skips_group_teardown :
    ∃ w, _cmocka_run_group_tests "tests" [Sample.case_plain] (some Sample.setup_refuses)
        (some Sample.setup) World.fresh = .returned 1 w ∧
      w.tests_failed = 0 ∧ w.calls = [⟨.group_setup, none⟩] ∧
      (⟨.group_teardown, none⟩ : Call) ∉ w.calls :=
  ⟨_, rfl, rfl, rfl, by decide⟩

/-- C8 (amended): in every run that returns after a group setup that is
absent or returned 0, the value returned is `tests_failed` and the group
teardown hook, when provided, is called exactly once, as the last call, after
the group setup and every test-case hook.  A run that returns after the group
setup returned non-zero returns 1 having called the group setup only, the
counters unchanged. -/
theorem group_teardown_once_after_cases (group_name : String) (tests : List CMUnitTest)
    (group_setup group_teardown : Option CMFixtureFunction) (w w' : World) (v : Int)
    (hret : _cmocka_run_group_tests group_name tests group_setup group_teardown w =
      .returned v w') :
    (succeeds group_setup none = true →
      v = w'.tests_failed ∧
      ∃ before, w'.calls = w.calls ++ before ++ fixture_call .group_teardown group_teardown none ∧
        before = fixture_call .group_setup group_setup none ++ cases_calls 0 tests ∧
        ∀ c ∈ before, c.hook ≠ .group_teardown) ∧
    (succeeds group_setup none = false →
      v = 1 ∧ w'.calls = w.calls ++ [⟨.group_setup, none⟩] ∧
      w'.tests_run = w.tests_run ∧ w'.tests_failed = w.tests_failed) := by
  constructor
  · intro hgs
    have hclean := no_assertion_fails_of_returned ⟨group_name, tests, group_setup, group_teardown⟩
      w w' v hret hgs
    have hrun := call_of_no_assertion_fails ⟨group_name, tests, group_setup, group_teardown⟩
      w hclean
    simp only [GroupRun.call] at hrun
    rw [hrun] at hret
    simp only [Outcome.returned.injEq] at hret
    obtain ⟨hv, hw⟩ := hret
    subst hw
    refine ⟨hv.symm, _, ?_, rfl, ?_⟩
    · simp [group_calls]
    · intro c hc
      simp only [List.mem_append] at hc
      rcases hc with hc | hc
      · rw [(mem_fixture_call _ _ _ _ hc).1]; simp
      · obtain ⟨j, _, _, h3⟩ := mem_cases_calls tests 0 c hc
        intro h
        rw [h] at h3
        simp [Hook.index] at h3
  · intro hgs
    cases group_setup with
    | none => simp [succeeds] at hgs
    | some gs =>
      have hrc : (gs none).ret ≠ 0 := by simpa [succeeds] using hgs
      cases hp : (gs none).passes with
      | false =>
        obtain ⟨d, hd⟩ := invoke_of_fails .group_setup none gs
          (printf (.running tests.length group_name) w) hp
        simp [_cmocka_run_group_tests, hd] at hret
      | true =>
        simp only [_cmocka_run_group_tests, invoke_of_passes _ _ gs _ hp, hrc, ne_eq,
          not_false_eq_true, if_true, Outcome.returned.injEq] at hret
        obtain ⟨hv, hw⟩ := hret
        subst hw
        exact ⟨hv.symm, by simp [printf], by simp [printf], by simp [printf]⟩

/-- C8 (amended), at a run of one plain case with both group fixtures. -/
theorem group_teardown_once_after_cases_witness :
    (succeeds (some Sample.setup) none = true →
      (0 : Int) = (⟨1, 0,
          [.running 1 "tests", .run "test_holds", .ok "test_holds", .tests_run 1, .passed 1],
          [⟨.group_setup, none⟩, ⟨.test 0, some 0⟩, ⟨.group_teardown, none⟩]⟩ :
            World).tests_failed ∧
      ∃ before, (⟨1, 0,
          [.running 1 "tests", .run "test_holds", .ok "test_holds", .tests_run 1, .passed 1],
          [⟨.group_setup, none⟩, ⟨.test 0, some 0⟩, ⟨.group_teardown, none⟩]⟩ : World).calls =
          World.fresh.calls ++ before ++
            fixture_call .group_teardown (some Sample.setup) none ∧
        before = fixture_call .group_setup (some Sample.setup) none ++
          cases_calls 0 [Sample.case_plain] ∧
        ∀ c ∈ before, c.hook ≠ .group_teardown) ∧
    (succeeds (some Sample.setup) none = false →
      (0 : Int) = 1 ∧
      (⟨1, 0,
          [.running 1 "tests", .run "test_holds", .ok "test_holds", .tests_run 1, .passed 1],
          [⟨.group_setup, none⟩, ⟨.test 0, some 0⟩, ⟨.group_teardown, none⟩]⟩ : World).calls =
        World.fresh.calls ++ [⟨.group_setup, none⟩] ∧
      (⟨1, 0,
          [.running 1 "tests", .run "test_holds", .ok "test_holds", .tests_run 1, .passed 1],
          [⟨.group_setup, none⟩, ⟨.test 0, some 0⟩, ⟨.group_teardown, none⟩]⟩ :
            World).tests_run = World.fresh.tests_run ∧
      (⟨1, 0,
          [.running 1 "tests", .run "test_holds", .ok "test_holds", .tests_run 1, .passed 1],
          [⟨.group_setup, none⟩, ⟨.test 0, some 0⟩, ⟨.group_teardown, none⟩]⟩ :
            World).tests_failed = World.fresh.tests_failed) :=
  group_teardown_once_after_cases "tests" [Sample.case_plain] (some Sample.setup)
    (some Sample.setup) World.fresh _ 0 rfl

end CMocka

/-! ## The arithmetic library: `divide` -/

namespace MathUtils

theorem natAbs_tmod_eq (a b : Int) : (Int.tmod a b).natAbs = a.natAbs % b.natAbs := by
  cases a <;> cases b <;> simp [Int.tmod, Int.natAbs_neg] <;> rfl

theorem natAbs_tdiv_eq (a b : Int) : (Int.tdiv a b).natAbs = a.natAbs / b.natAbs :=
  Int.natAbs_tdiv a b

/-- The truncated quotient of two `int`s is an `int`, the one overflowing
pair apart. -/
theorem is_int_tdiv (a b : Int) (ha : is_int a) (hb : b ≠ 0)
    (hne : ¬ (a = INT_MIN ∧ b = -1)) : is_int (Int.tdiv a b) := by
  unfold is_int INT_MIN INT_MAX at *
  have hq := natAbs_tdiv_eq a b
  by_cases h1 : b = 1
  · subst h1; simp only [Int.tdiv_one]; exact ha
  · by_cases h2 : b = -1
    · subst h2
      have : Int.tdiv a (-1) = -a := by rw [Int.tdiv_neg, Int.tdiv_one]
      rw [this]
      have : a ≠ -2147483648 := fun h => hne ⟨h, rfl⟩
      omega
    · have hb2 : 2 ≤ b.natAbs := by omega
      have hle : a.natAbs / b.natAbs ≤ a.natAbs / 2 := Nat.div_le_div_left hb2 (by norm_num)
      have ha' : a.natAbs ≤ 2147483648 := by omega
      have : (Int.tdiv a b).natAbs ≤ 1073741824 := by omega
      omega

/-- C10 as stated fails for one pair of `int`s: the quotient of `INT_MIN` by
`-1` truncated toward zero is 2147483648, which is not an `int`, so `divide`
has no value to return there. -/
theorem divide_int_min_by_minus_one :
    is_int INT_MIN ∧ is_int (-1) ∧ divide INT_MIN (-1) = none ∧
      Int.tdiv INT_MIN (-1) = 2147483648 ∧ ¬ is_int (Int.tdiv INT_MIN (-1)) := by
  decide

/-- C10 (amended): for all `int`s `a` and `b` other than the pair
`(INT_MIN, -1)`, `divide a b` returns a value, an `int`: 0 when `b = 0`, and
otherwise the quotient of `a` by `b` truncated toward zero, that is the `q`
with `|q * b| ≤ |a|` and `|a - q * b| < |b|`.  In particular `divide 7 2` is 3
and `divide 10 0` is 0. -/
theorem divide_truncates (a b : Int) (ha : is_int a) (_hb : is_int b)
    (hne : ¬ (a = INT_MIN ∧ b = -1)) :
    (∃ q, divide a b = some q ∧ is_int q ∧ (b = 0 → q = 0) ∧
      (b ≠ 0 → q = Int.tdiv a b ∧ |q * b| ≤ |a| ∧ |a - q * b| < |b|)) ∧
    divide 7 2 = some 3 ∧ divide 10 0 = some 0 := by
  refine ⟨?_, by decide, by decide⟩
  by_cases hb0 : b = 0
  · refine ⟨0, by simp [divide, hb0], by decide, fun _ => rfl, fun h => absurd hb0 h⟩
  · have hq := is_int_tdiv a b ha hb0 hne
    refine ⟨Int.tdiv a b, by simp [divide, int_div, hb0, hq], hq, fun h => absurd h hb0,
      fun _ => ⟨rfl, ?_, ?_⟩⟩
    · rw [Int.abs_eq_natAbs, Int.abs_eq_natAbs, Int.natAbs_mul, natAbs_tdiv_eq]
      exact_mod_cast Nat.div_mul_le_self a.natAbs b.natAbs
    · have hr : a - Int.tdiv a b * b = Int.tmod a b := by
        rw [Int.tmod_def]; ring
      rw [hr, Int.abs_eq_natAbs, Int.abs_eq_natAbs, natAbs_tmod_eq]
      have : 0 < b.natAbs := Int.natAbs_pos.mpr hb0
      exact_mod_cast Nat.mod_lt a.natAbs this

/-- C10 (amended), at `divide (-7) 2`. -/
theorem divide_truncates_witness :
    (∃ q, divide (-7) 2 = some q ∧ is_int q ∧ ((2 : Int) = 0 → q = 0) ∧
      ((2 : Int) ≠ 0 → q = Int.tdiv (-7) 2 ∧ |q * 2| ≤ |(-7 : Int)| ∧
        |(-7 : Int) - q * 2| < |(2 : Int)|)) ∧
    divide 7 2 = some 3 ∧ divide 10 0 = some 0 :=
  divide_truncates (-7) 2 (by decide) (by decide) (by decide)

end MathUtils

/-! ## The arithmetic library: `multiply` and `add` -/

namespace MathUtils

/-- C11: for all `int`s `a` and all non-zero `int`s `b` whose product `a * b`
is within the `int` range, `divide (multiply a b) b` returns `a`. -/
theorem divide_multiply_cancel (a b : Int) (ha : is_int a) (_hb : is_int b) (hb0 : b ≠ 0)
    (hab : is_int (a * b)) : divide (multiply a b) b = some a := by
  have hq : Int.tdiv (a * b) b = a := Int.mul_tdiv_cancel a hb0
  simp [divide, int_div, multiply, wrap_of_is_int _ hab, hb0, hq, ha]

/-- C11, at `a = INT_MIN`, `b = 1` and at `a = -7`, `b = 3`. -/
theorem divide_multiply_cancel_witness :
    divide (multiply INT_MIN 1) 1 = some INT_MIN ∧ divide (multiply (-7) 3) 3 = some (-7) :=
  ⟨divide_multiply_cancel INT_MIN 1 (by decide) (by decide) (by decide) (by decide),
   divide_multiply_cancel (-7) 3 (by decide) (by decide) (by decide) (by decide)⟩

/-- C12: for all `int`s `a` and `b`, with addition and subtraction taken in
`int` arithmetic, `add a b = add b a` and `add a b - b = a`; in particular
`add a 0 = a` and `add 0 a = a`.  The value of `add` is always an `int`, and
it is the exact sum whenever that is an `int`. -/
theorem add_comm_and_sub_cancel (a b : Int) (ha : is_int a) (_hb : is_int b) :
    add a b = add b a ∧ int_sub (add a b) b = a ∧ add a 0 = a ∧ add 0 a = a ∧
      is_int (add a b) ∧ (is_int (a + b) → add a b = a + b) := by
  refine ⟨?_, ?_, ?_, ?_, is_int_wrap _, fun h => wrap_of_is_int _ h⟩
  · unfold add; rw [Int.add_comm]
  · unfold is_int INT_MIN INT_MAX at ha
    unfold int_sub add wrap INT_MIN
    omega
  · unfold add; rw [Int.add_zero]; exact wrap_of_is_int a ha
  · unfold add; rw [Int.zero_add]; exact wrap_of_is_int a ha

/-- C12, at the overflowing pair `a = INT_MAX`, `b = 1`. -/
theorem add_comm_and_sub_cancel_witness :
    add INT_MAX 1 = add 1 INT_MAX ∧ int_sub (add INT_MAX 1) 1 = INT_MAX ∧
      add INT_MAX 0 = INT_MAX ∧ add 0 INT_MAX = INT_MAX ∧
      is_int (add INT_MAX 1) ∧ (is_int (INT_MAX + 1) → add INT_MAX 1 = INT_MAX + 1) :=
  add_comm_and_sub_cancel INT_MAX 1 (by decide) (by decide)

end MathUtils

/-! ## The truth macros -/

namespace CMocka

/-- For a value within the `int` range the two macros are complementary:
`assert_true` terminates exactly when it is 0, `assert_false` exactly when it
is not. -/
theorem assert_true_false_of_is_int (c : Int) (hc : MathUtils.is_int c) (expr file : String)
    (line : Int) (w : World) :
    ((assert_true c expr file line w).terminated ↔ c = 0) ∧
      ((assert_false c expr file line w).terminated ↔ c ≠ 0) := by
  unfold assert_true assert_false to_int lnot
  rw [MathUtils.wrap_of_is_int c hc]
  by_cases h : c = 0 <;> simp [_assert_true, h, fail_with, Outcome.terminated]

/-- C16: at `c = 4294967296`, a non-zero value wider than `int`,
`assert_true(c)` converts `c` to the `int` 0 and terminates the process with
exit status 1, and `assert_false(c)` terminates it as well: both macros
terminate, and `assert_true(c)` terminates although `c` is not 0. -/
theorem assert_true_terminates_on_wide_nonzero (expr file : String) (line : Int) (w : World) :
    (4294967296 : Int) ≠ 0 ∧ to_int 4294967296 = 0 ∧
      assert_true 4294967296 expr file line w =
        .exited 1 ⟨w.tests_run, incr w.tests_failed, w.out ++ [.failed_true file line expr],
          w.calls⟩ ∧
      (assert_true 4294967296 expr file line w).terminated ∧
      (assert_false 4294967296 expr file line w).terminated := by
  have h0 : to_int 4294967296 = 0 := by decide
  refine ⟨by decide, h0, ?_, ?_, ?_⟩
  · simp [assert_true, h0, _assert_true, fail_with, printf]
  · simp [assert_true, h0, _assert_true, fail_with, Outcome.terminated]
  · simp [assert_false, lnot, _assert_true, fail_with, Outcome.terminated]

end CMocka

/-! ## Return values of teardown hooks -/

namespace CMocka

/-- Replacing the return value of a fixture changes the value its call
returns and nothing else. -/
theorem invoke_with_ret (h : Hook) (arg : Option Ptr) (f : CMFixtureFunction)
    (r : Option Ptr → Int) (w : World) :
    invoke h arg (with_ret f r) w =
      match invoke h arg f w with
      | .returned (_, state) w => .returned (r arg, state) w
      | .exited s w => .exited s w := by
  unfold invoke
  simp only [with_ret]
  cases exec_asserts (f arg).asserts { w with calls := w.calls ++ [⟨h, arg⟩] } <;> rfl

theorem run_body_with_teardown_ret (i : Nat) (t : CMUnitTest) (r : Option Ptr → Int)
    (state : Ptr) (w : World) :
    run_body i (t.with_teardown_ret r) state w = run_body i t state w := by
  obtain ⟨name, test_func, setup_func, teardown_func, initial_state⟩ := t
  simp only [run_body, CMUnitTest.with_teardown_ret]
  cases invoke (.test i) (some state) test_func w with
  | exited s w1 => rfl
  | returned v w1 =>
    obtain ⟨u, st⟩ := v
    cases teardown_func with
    | none => rfl
    | some td =>
      simp only [Option.map_some', invoke_with_ret]
      cases invoke (.teardown i) (some st) td w1 <;> rfl

theorem run_test_with_teardown_ret (i : Nat) (t : CMUnitTest) (r : Option Ptr → Int)
    (w : World) : run_test i (t.with_teardown_ret r) w = run_test i t w := by
  have hb := fun state w => run_body_with_teardown_ret i t r state w
  obtain ⟨name, test_func, setup_func, teardown_func, initial_state⟩ := t
  simp only [CMUnitTest.with_teardown_ret] at hb
  simp only [run_test, CMUnitTest.with_teardown_ret, hb]

theorem run_tests_replace_teardown_rets (tests : List CMUnitTest)
    (rs : List (Option Ptr → Int)) (i : Nat) (w : World) :
    run_tests i (replace_teardown_rets tests rs) w = run_tests i tests w := by
  induction tests generalizing rs i w with
  | nil => cases rs <;> rfl
  | cons t rest ih =>
    cases rs with
    | nil => rfl
    | cons r rs =>
      simp only [replace_teardown_rets, run_tests, run_test_with_teardown_ret]
      cases run_test i t w with
      | exited s w1 => rfl
      | returned v w1 => exact ih rs (i + 1) w1

theorem length_replace_teardown_rets (tests : List CMUnitTest) (rs : List (Option Ptr → Int)) :
    (replace_teardown_rets tests rs).length = tests.length := by
  induction tests generalizing rs with
  | nil => cases rs <;> rfl
  | cons t rest ih =>
    cases rs with
    | nil => rfl
    | cons r rs => simp [replace_teardown_rets, ih rs]

theorem finish_with_ret (group_teardown : Option CMFixtureFunction) (r : Option Ptr → Int)
    (w : World) :
    finish (group_teardown.map (fun f => with_ret f r)) w = finish group_teardown w := by
  cases group_teardown with
  | none => rfl
  | some f =>
    simp only [finish, Option.map_some', invoke_with_ret]
    cases invoke .group_teardown none f w <;> rfl

/-- C14: the return values of the per-test teardown hooks and of the group
teardown hook are ignored.  Replacing the return value of any of the
teardowns, by any value, leaves the whole outcome of the run as it was: the
same return or exit, the same value returned, the same `tests_run` and
`tests_failed`, the same output and the same hook calls. -/
theorem teardown_return_values_ignored (group_name : String) (tests : List CMUnitTest)
    (rs : List (Option Ptr → Int)) (group_setup group_teardown : Option CMFixtureFunction)
    (rg : Option Ptr → Int) (w : World) :
    _cmocka_run_group_tests group_name (replace_teardown_rets tests rs) group_setup
        (group_teardown.map (fun f => with_ret f rg)) w =
      _cmocka_run_group_tests group_name tests group_setup group_teardown w := by
  simp only [_cmocka_run_group_tests, length_replace_teardown_rets,
    run_tests_replace_teardown_rets, finish_with_ret]

end CMocka

/-! ## The counter invariant -/

namespace CMocka

/-- A run that returns after its group setup returned non-zero changed
neither counter and called the group setup only. -/
theorem returned_of_group_setup_fails (group_name : String) (tests : List CMUnitTest)
    (group_setup group_teardown : Option CMFixtureFunction) (w w' : World) (v : Int)
    (hret : _cmocka_run_group_tests group_name tests group_setup group_teardown w =
      .returned v w')
    (hgs : succeeds group_setup none = false) :
    v = 1 ∧ w' = ⟨w.tests_run, w.tests_failed,
      w.out ++ [.running tests.length group_name, .group_setup_failed],
      w.calls ++ [⟨.group_setup, none⟩]⟩ := by
  cases group_setup with
  | none => simp [succeeds] at hgs
  | some gs =>
    have hrc : (gs none).ret ≠ 0 := by simpa [succeeds] using hgs
    cases hp : (gs none).passes with
    | false =>
      obtain ⟨d, hd⟩ := invoke_of_fails .group_setup none gs
        (printf (.running tests.length group_name) w) hp
      simp [_cmocka_run_group_tests, hd] at hret
    | true =>
      simp only [_cmocka_run_group_tests, invoke_of_passes _ _ gs _ hp, hrc, ne_eq,
        not_false_eq_true, if_true, Outcome.returned.injEq] at hret
      obtain ⟨hv, hw⟩ := hret
      subst hw
      exact ⟨hv.symm, by simp [printf]⟩

theorem countP_is_test_case_calls (i : Nat) (t : CMUnitTest) :
    (case_calls i t).countP (fun c => c.hook.is_test) = if t.setup_fails then 0 else 1 := by
  obtain ⟨name, test_func, setup_func, teardown_func, initial_state⟩ := t
  cases setup_func <;> cases teardown_func <;>
    simp only [case_calls, fixture_call] <;> split <;>
    simp [List.countP_cons, Hook.is_test]

theorem countP_is_test_cases_calls (tests : List CMUnitTest) (i : Nat) :
    (cases_calls i tests).countP (fun c => c.hook.is_test) =
      (tests.filter (fun t => !t.setup_fails)).length := by
  induction tests generalizing i with
  | nil => simp [cases_calls]
  | cons t rest ih =>
    simp only [cases_calls, List.countP_append, countP_is_test_case_calls, ih (i + 1),
      List.filter_cons]
    cases t.setup_fails <;> simp
    omega

theorem countP_is_test_group_calls (tests : List CMUnitTest)
    (group_setup group_teardown : Option CMFixtureFunction) :
    (group_calls tests group_setup group_teardown).countP (fun c => c.hook.is_test) =
      (tests.filter (fun t => !t.setup_fails)).length := by
  simp only [group_calls, List.countP_append, countP_is_test_cases_calls]
  cases group_setup <;> cases group_teardown <;> simp [fixture_call, Hook.is_test]

theorem length_eq_failed_add_rest (tests : List CMUnitTest) :
    tests.length = failed_setups tests + (tests.filter (fun t => !t.setup_fails)).length := by
  induction tests with
  | nil => simp [failed_setups]
  | cons t rest ih =>
    simp only [failed_setups] at ih
    simp only [failed_setups, List.filter_cons, List.length_cons]
    cases t.setup_fails <;> simp <;> omega

end CMocka

namespace CMocka

/-- A loop iteration that is entered with `tests_run` below `INT_MAX` and
returns keeps `0 <= tests_failed <= tests_run`. -/
theorem counters_ok_of_run_test_returned (i : Nat) (t : CMUnitTest) (w w' : World)
    (hinv : w.counters_ok) (hlt : w.tests_run < MathUtils.INT_MAX)
    (h : run_test i t w = .returned () w') : w'.counters_ok := by
  cases ht : t.no_assertion_fails with
  | false =>
    obtain ⟨w1, h1⟩ := run_test_of_assertion_fails i t w ht
    rw [h1] at h
    simp at h
  | true =>
    rw [run_test_of_no_assertion_fails i t w ht] at h
    simp only [Outcome.returned.injEq, true_and] at h
    subst h
    unfold World.counters_ok at *
    have hr : incr w.tests_run = w.tests_run + 1 := by
      apply incr_of_lt _ _ hlt
      unfold MathUtils.is_int MathUtils.INT_MIN MathUtils.INT_MAX at *
      omega
    have hf : incr w.tests_failed = w.tests_failed + 1 := by
      apply incr_of_lt
      · unfold MathUtils.is_int MathUtils.INT_MIN MathUtils.INT_MAX at *
        omega
      · omega
    cases t.setup_fails
    · simp only [hr, Bool.false_eq_true, if_false]; omega
    · simp only [hr, hf, if_true]; omega

/-- C15 as stated fails at the `int` boundary: the world with
`tests_run = INT_MAX` and `tests_failed = 0` satisfies
`0 <= tests_failed <= tests_run`; one loop iteration of a passing case, and so
the run of that one case, leaves `tests_run = INT_MIN`, which breaks the
invariant, and the summary prints the passed count -2147483648. -/
theorem counters_invariant_lost_at_int_max :
    (⟨MathUtils.INT_MAX, 0, [], []⟩ : World).counters_ok ∧
    (∃ w, run_test 0 Sample.case_plain ⟨MathUtils.INT_MAX, 0, [], []⟩ = .returned () w ∧
      w.tests_run = MathUtils.INT_MIN ∧ ¬ w.counters_ok) ∧
    ∃ w, _cmocka_run_group_tests "tests" [Sample.case_plain] none none
        ⟨MathUtils.INT_MAX, 0, [], []⟩ = .returned 0 w ∧
      w.tests_run = MathUtils.INT_MIN ∧ w.tests_failed = 0 ∧ ¬ w.counters_ok ∧
      w.out = [.running 1 "tests", .run "test_holds", .ok "test_holds",
        .tests_run (-2147483648), .passed (-2147483648)] :=
  ⟨by decide, ⟨_, rfl, rfl, by decide⟩, ⟨_, rfl, rfl, rfl, by decide, rfl⟩⟩

/-- C15 (amended): `0 <= tests_failed <= tests_run` is an invariant of the
runner while `tests_run` stays within the `int` range.  A loop iteration
entered with it and with `tests_run < INT_MAX` that returns preserves it, and
a run entered with it and with `tests_run + num_tests <= INT_MAX` returns with
it, so the passed count `tests_run - tests_failed` printed in the summary is
not negative.  In a process that has just started, that difference at return
equals the number of bodies called, each of which, the run having returned,
ran to completion together with its teardown; it is the number of cases whose
setup did not return non-zero when the group setup succeeded. -/
theorem counters_invariant (group_name : String) (tests : List CMUnitTest)
    (group_setup group_teardown : Option CMFixtureFunction) (w w' : World) (v : Int)
    (hinv : w.counters_ok)
    (hbound : w.tests_run + tests.length ≤ MathUtils.INT_MAX)
    (hret : _cmocka_run_group_tests group_name tests group_setup group_teardown w =
      .returned v w') :
    (∀ i t w1 w2, w1.counters_ok → w1.tests_run < MathUtils.INT_MAX →
      run_test i t w1 = .returned () w2 → w2.counters_ok) ∧
    w'.counters_ok ∧ 0 ≤ w'.tests_run - w'.tests_failed ∧
    (succeeds group_setup none = true →
      ∃ progress, w'.out = progress ++
        [.tests_run w'.tests_run, .passed (w'.tests_run - w'.tests_failed)] ++
        (if w'.tests_failed > 0 then [.failed w'.tests_failed] else [])) ∧
    (w = World.fresh →
      w'.tests_run - w'.tests_failed = w'.calls.countP (fun c => c.hook.is_test) ∧
      (succeeds group_setup none = true →
        w'.tests_run - w'.tests_failed = (tests.filter (fun t => !t.setup_fails)).length)) := by
  refine ⟨fun i t w1 w2 h1 h2 h3 => counters_ok_of_run_test_returned i t w1 w2 h1 h2 h3, ?_⟩
  have hlen := length_eq_failed_add_rest tests
  cases hgs : succeeds group_setup none with
  | true =>
    have hclean := no_assertion_fails_of_returned ⟨group_name, tests, group_setup, group_teardown⟩
      w w' v hret hgs
    have hrun := call_of_no_assertion_fails ⟨group_name, tests, group_setup, group_teardown⟩
      w hclean
    simp only [GroupRun.call] at hrun
    unfold World.counters_ok at hinv
    have hr : counted w.tests_run tests.length = w.tests_run + tests.length := by
      apply counted_of_le _ _ _ hbound
      unfold MathUtils.is_int MathUtils.INT_MIN MathUtils.INT_MAX at *
      omega
    have hf : counted w.tests_failed (failed_setups tests) =
        w.tests_failed + failed_setups tests := by
      apply counted_of_le
      · unfold MathUtils.is_int MathUtils.INT_MIN MathUtils.INT_MAX at *
        omega
      · unfold MathUtils.INT_MAX at *
        omega
    have hsub : MathUtils.int_sub (w.tests_run + tests.length)
        (w.tests_failed + failed_setups tests) =
        w.tests_run + tests.length - (w.tests_failed + failed_setups tests) := by
      apply int_sub_of_le
      · unfold MathUtils.is_int MathUtils.INT_MIN MathUtils.INT_MAX at *
        omega
      · omega
      · omega
    rw [hr, hf] at hrun
    rw [hrun] at hret
    simp only [Outcome.returned.injEq] at hret
    obtain ⟨_, hw⟩ := hret
    subst hw
    unfold World.counters_ok
    refine ⟨⟨by simp only; omega, by simp only; omega⟩, by simp only; omega, ?_, ?_⟩
    · intro _
      exact ⟨w.out ++ .running tests.length group_name :: cases_lines tests,
        by simp [summary_lines, hsub]⟩
    · intro hfresh
      subst hfresh
      simp only [World.fresh, List.nil_append, countP_is_test_group_calls, zero_add]
      refine ⟨by omega, fun _ => by omega⟩
  | false =>
    obtain ⟨_, hw⟩ := returned_of_group_setup_fails group_name tests group_setup group_teardown
      w w' v hret hgs
    subst hw
    unfold World.counters_ok at *
    refine ⟨hinv, by simp only; omega, fun h => by simp at h, ?_⟩
    intro hfresh
    subst hfresh
    refine ⟨by simp [World.fresh, Hook.is_test], fun h => by simp at h⟩

end CMocka

namespace CMocka

/-- C15 (amended), at the run of three cases, one with a setup that returns 1,
started in a fresh process: it returns 1 with counters 3 and 1, passed 2, and
two bodies called. -/
theorem counters_invariant_witness :
    (∀ i t w1 w2, w1.counters_ok → w1.tests_run < MathUtils.INT_MAX →
      run_test i t w1 = .returned () w2 → w2.counters_ok) ∧
    Sample.world_after_three.counters_ok ∧
    0 ≤ Sample.world_after_three.tests_run - Sample.world_after_three.tests_failed ∧
    (succeeds none none = true →
      ∃ progress, Sample.world_after_three.out = progress ++
        [.tests_run Sample.world_after_three.tests_run,
          .passed (Sample.world_after_three.tests_run -
            Sample.world_after_three.tests_failed)] ++
        (if Sample.world_after_three.tests_failed > 0
          then [.failed Sample.world_after_three.tests_failed] else [])) ∧
    (World.fresh = World.fresh →
      Sample.world_after_three.tests_run - Sample.world_after_three.tests_failed =
        Sample.world_after_three.calls.countP (fun c => c.hook.is_test) ∧
      (succeeds none none = true →
        Sample.world_after_three.tests_run - Sample.world_after_three.tests_failed =
          ([Sample.case_full, Sample.case_refused, Sample.case_plain].filter
            (fun t => !t.setup_fails)).length)) :=
  counters_invariant "tests" [Sample.case_full, Sample.case_refused, Sample.case_plain]
    none (some Sample.setup) World.fresh Sample.world_after_three 1 (by decide) (by decide) rfl

end CMocka

/-! ## The state cell of a test case -/

namespace CMocka

/-- The cell each hook of a case is prescribed to receive: the setup the
initial state, the body what the setup left, the teardown what the body
left. -/
theorem arg_of_mem_case_calls (i : Nat) (t : CMUnitTest) (c : Call) (hc : c ∈ case_calls i t) :
    (c.hook = .setup i → c.arg = some t.initial_state) ∧
    (c.hook = .test i → c.arg = some t.body_state) ∧
    (c.hook = .teardown i → c.arg = some t.teardown_state) := by
  simp only [case_calls, List.mem_append] at hc
  rcases hc with hc | hc
  · rw [(mem_fixture_call _ _ _ _ hc).1]
    simp
  · split at hc
    · simp at hc
    · rcases List.mem_cons.mp hc with hc | hc
      · rw [hc]; simp
      · rw [(mem_fixture_call _ _ _ _ hc).1]
        simp

/-- Whether it returns or ends the process, a call through a hook pointer
adds exactly its own record to the calls. -/
theorem invoke_world_calls {ρ : Type} (h : Hook) (arg : Option Ptr)
    (f : Option Ptr → Invocation ρ) (w : World) :
    (invoke h arg f w).world.calls = w.calls ++ [⟨h, arg⟩] := by
  cases hp : (f arg).passes with
  | true => rw [invoke_of_passes h arg f w hp]; rfl
  | false =>
    obtain ⟨d, hd⟩ := invoke_of_fails h arg f w hp
    rw [hd]; rfl

/-- An iteration that ends the process made a first part, not empty, of the
calls prescribed for its case. -/
theorem run_test_exit_calls (i : Nat) (t : CMUnitTest) (w : World)
    (h : t.no_assertion_fails = false) :
    ∃ made, (run_test i t w).world.calls = w.calls ++ made ∧ made ≠ [] ∧
      made <+: case_calls i t := by
  cases hsa : asserts_pass t.setup_func (some t.initial_state) with
  | false =>
    obtain ⟨name, test_func, setup_func, teardown_func, initial_state⟩ := t
    cases setup_func with
    | none => simp [asserts_pass] at hsa
    | some su =>
      simp only [asserts_pass] at hsa
      obtain ⟨d, hd⟩ := invoke_of_fails (.setup i) (some initial_state) su
        ⟨incr w.tests_run, w.tests_failed, w.out ++ [.run name], w.calls⟩ hsa
      refine ⟨[⟨.setup i, some initial_state⟩], ?_, by simp, ?_⟩
      · simp only [run_test, printf, hd]
        rfl
      · exact ⟨_, by simp only [case_calls, fixture_call]; rfl⟩
  | true =>
    simp only [CMUnitTest.no_assertion_fails, hsa, Bool.true_and, Bool.or_eq_false_iff,
      Bool.and_eq_false_iff] at h
    obtain ⟨hsu, hrest⟩ := h
    cases hb : (t.test_func (some t.body_state)).passes with
    | false =>
      obtain ⟨d, hd⟩ := run_test_of_body_fails i t w hsa hsu hb
      refine ⟨fixture_call (.setup i) t.setup_func (some t.initial_state) ++
        [⟨.test i, some t.body_state⟩], by rw [hd]; rfl, by simp, ?_⟩
      exact ⟨fixture_call (.teardown i) t.teardown_func (some t.teardown_state),
        by simp [case_calls, hsu]⟩
    | true =>
      have htd := hrest.resolve_left (by simp [hb])
      obtain ⟨name, test_func, setup_func, teardown_func, initial_state⟩ := t
      cases teardown_func with
      | none => simp [asserts_pass] at htd
      | some td =>
        simp only [asserts_pass, CMUnitTest.teardown_state] at htd
        cases setup_func with
        | none =>
          simp only [CMUnitTest.body_state] at hb htd
          obtain ⟨d, hd⟩ := invoke_of_fails (.teardown i)
            (some (test_func (some initial_state)).state) td
            ⟨incr w.tests_run, w.tests_failed, w.out ++ [.run name],
              w.calls ++ [⟨.test i, some initial_state⟩]⟩ htd
          refine ⟨[⟨.test i, some initial_state⟩,
            ⟨.teardown i, some (test_func (some initial_state)).state⟩], ?_, by simp, ?_⟩
          · simp only [run_test, run_body, printf, invoke_of_passes _ _ _ _ hb, hd]
            simp [Outcome.world]
          · exact ⟨[], by simp [case_calls, fixture_call, CMUnitTest.setup_fails, succeeds,
              CMUnitTest.body_state, CMUnitTest.teardown_state]⟩
        | some su =>
          simp only [CMUnitTest.body_state] at hb htd
          simp only [asserts_pass] at hsa
          simp only [CMUnitTest.setup_fails, succeeds, Bool.not_eq_false', beq_iff_eq] at hsu
          obtain ⟨d, hd⟩ := invoke_of_fails (.teardown i)
            (some (test_func (some (su (some initial_state)).state)).state) td
            ⟨incr w.tests_run, w.tests_failed, w.out ++ [.run name],
              w.calls ++ [⟨.setup i, some initial_state⟩,
                ⟨.test i, some (su (some initial_state)).state⟩]⟩ htd
          refine ⟨[⟨.setup i, some initial_state⟩,
            ⟨.test i, some (su (some initial_state)).state⟩,
            ⟨.teardown i, some (test_func (some (su (some initial_state)).state)).state⟩],
            ?_, by simp, ?_⟩
          · simp [run_test, run_body, printf, invoke_of_passes _ _ su _ hsa, hsu,
              invoke_of_passes _ _ test_func _ hb, hd, Outcome.world]
          · exact ⟨[], by simp [case_calls, fixture_call, CMUnitTest.setup_fails, succeeds, hsu,
              CMUnitTest.body_state, CMUnitTest.teardown_state]⟩

/-- However an iteration ends, the calls it makes are a first part, not
empty, of the calls prescribed for its case. -/
theorem run_test_calls_initial (i : Nat) (t : CMUnitTest) (w : World) :
    ∃ made, (run_test i t w).world.calls = w.calls ++ made ∧ made ≠ [] ∧
      made <+: case_calls i t := by
  cases h : t.no_assertion_fails with
  | false => exact run_test_exit_calls i t w h
  | true =>
    exact ⟨case_calls i t, by rw [run_test_of_no_assertion_fails i t w h]; rfl,
      case_calls_ne_nil i t, ⟨[], List.append_nil _⟩⟩

/-- Every call an iteration makes is one prescribed for its case. -/
theorem run_test_world_calls (i : Nat) (t : CMUnitTest) (w : World) :
    ∃ made, (run_test i t w).world.calls = w.calls ++ made ∧ ∀ c ∈ made, c ∈ case_calls i t := by
  obtain ⟨made, h1, _, h3⟩ := run_test_calls_initial i t w
  exact ⟨made, h1, fun c hc => h3.subset hc⟩

/-- Every call the loop makes is one prescribed for its cases. -/
theorem run_tests_world_calls (tests : List CMUnitTest) (i : Nat) (w : World) :
    ∃ made, (run_tests i tests w).world.calls = w.calls ++ made ∧
      ∀ c ∈ made, c ∈ cases_calls i tests := by
  induction tests generalizing i w with
  | nil => exact ⟨[], by simp [run_tests, Outcome.world], by simp⟩
  | cons t rest ih =>
    obtain ⟨m1, h1, hm1⟩ := run_test_world_calls i t w
    cases hr : run_test i t w with
    | exited s w1 =>
      rw [hr] at h1
      refine ⟨m1, by simp only [run_tests, hr]; exact h1, ?_⟩
      intro c hc
      simp only [cases_calls, List.mem_append]
      exact Or.inl (hm1 c hc)
    | returned v w1 =>
      rw [hr] at h1
      simp only [Outcome.world] at h1
      obtain ⟨m2, h2, hm2⟩ := ih (i + 1) w1
      refine ⟨m1 ++ m2, by simp only [run_tests, hr]; rw [h2, h1, List.append_assoc], ?_⟩
      intro c hc
      simp only [cases_calls, List.mem_append] at hc ⊢
      rcases hc with hc | hc
      · exact Or.inl (hm1 c hc)
      · exact Or.inr (hm2 c hc)

end CMocka

namespace CMocka

theorem finish_world_calls (group_teardown : Option CMFixtureFunction) (w : World) :
    ∃ made, (finish group_teardown w).world.calls = w.calls ++ made ∧
      ∀ c ∈ made, c ∈ fixture_call .group_teardown group_teardown none := by
  cases h : asserts_pass group_teardown none with
  | true =>
    exact ⟨fixture_call .group_teardown group_teardown none,
      by rw [finish_of_asserts_pass group_teardown w h]; rfl, fun _ hc => hc⟩
  | false =>
    cases group_teardown with
    | none => simp [asserts_pass] at h
    | some f =>
      simp only [asserts_pass] at h
      obtain ⟨d, hd⟩ := invoke_of_fails .group_teardown none f w h
      exact ⟨[⟨.group_teardown, none⟩], by simp only [finish, hd]; rfl, by simp [fixture_call]⟩

/-- The loop and what follows it, from any world: every call made is one
prescribed for the cases or the group teardown. -/
theorem loop_and_finish_world_calls (tests : List CMUnitTest)
    (group_teardown : Option CMFixtureFunction) (w : World) :
    ∃ made,
      (match run_tests 0 tests w with
        | .exited s w => (.exited s w : Outcome Int)
        | .returned _ w => finish group_teardown w).world.calls = w.calls ++ made ∧
      ∀ c ∈ made, c ∈ cases_calls 0 tests ++ fixture_call .group_teardown group_teardown none := by
  obtain ⟨m1, h1, hm1⟩ := run_tests_world_calls tests 0 w
  cases hr : run_tests 0 tests w with
  | exited s w1 =>
    rw [hr] at h1
    exact ⟨m1, h1, fun c hc => List.mem_append.mpr (Or.inl (hm1 c hc))⟩
  | returned v w1 =>
    rw [hr] at h1
    simp only [Outcome.world] at h1
    obtain ⟨m2, h2, hm2⟩ := finish_world_calls group_teardown w1
    refine ⟨m1 ++ m2, by simp only; rw [h2, h1, List.append_assoc], ?_⟩
    intro c hc
    simp only [List.mem_append] at hc ⊢
    rcases hc with hc | hc
    · exact Or.inl (hm1 c hc)
    · exact Or.inr (hm2 c hc)

/-- Every hook call a run makes, however it ends, is one of the prescribed
calls of the run. -/
theorem run_group_world_calls (group_name : String) (tests : List CMUnitTest)
    (group_setup group_teardown : Option CMFixtureFunction) (w : World) :
    ∃ made,
      (_cmocka_run_group_tests group_name tests group_setup group_teardown w).world.calls =
        w.calls ++ made ∧
      ∀ c ∈ made, c ∈ group_calls tests group_setup group_teardown := by
  cases group_setup with
  | none =>
    obtain ⟨m, h, hm⟩ := loop_and_finish_world_calls tests group_teardown
      (printf (.running tests.length group_name) w)
    refine ⟨m, by simp only [_cmocka_run_group_tests]; exact h, ?_⟩
    intro c hc
    have := hm c hc
    simp only [group_calls, fixture_call, List.nil_append]
    exact this
  | some gs =>
    cases hp : (gs none).passes with
    | false =>
      obtain ⟨d, hd⟩ := invoke_of_fails .group_setup none gs
        (printf (.running tests.length group_name) w) hp
      exact ⟨[⟨.group_setup, none⟩], by simp only [_cmocka_run_group_tests, hd]; rfl,
        by simp [group_calls, fixture_call]⟩
    | true =>
      by_cases hrc : (gs none).ret = 0
      · obtain ⟨m, h, hm⟩ := loop_and_finish_world_calls tests group_teardown
          ⟨w.tests_run, w.tests_failed, w.out ++ [.running tests.length group_name],
            w.calls ++ [⟨.group_setup, none⟩]⟩
        refine ⟨⟨.group_setup, none⟩ :: m, ?_, ?_⟩
        · simp only [_cmocka_run_group_tests, printf, invoke_of_passes _ _ gs _ hp, hrc, ne_eq,
            not_true_eq_false, if_false]
          rw [h]
          simp
        · intro c hc
          simp only [group_calls, fixture_call, List.mem_append, List.mem_cons,
            List.mem_singleton] at hc ⊢
          rcases hc with hc | hc
          · exact Or.inl (Or.inl (Or.inl hc))
          · have := hm c hc
            simp only [List.mem_append] at this
            rcases this with h1 | h1
            · exact Or.inl (Or.inr h1)
            · exact Or.inr h1
      · refine ⟨[⟨.group_setup, none⟩], ?_, by simp [group_calls, fixture_call]⟩
        simp [_cmocka_run_group_tests, printf, invoke_of_passes _ _ gs _ hp, hrc, Outcome.world]

/-- A prescribed call of a run that carries loop index `i` is a prescribed
call of the case at position `i`. -/
theorem mem_case_calls_of_mem_group_calls (tests : List CMUnitTest)
    (group_setup group_teardown : Option CMFixtureFunction) (i : Nat) (t : CMUnitTest)
    (ht : tests[i]? = some t) (c : Call)
    (hc : c ∈ group_calls tests group_setup group_teardown) (hidx : c.hook.index = some i) :
    c ∈ case_calls i t := by
  simp only [group_calls, List.mem_append] at hc
  rcases hc with (hc | hc) | hc
  · rw [(mem_fixture_call _ _ _ _ hc).1] at hidx
    simp [Hook.index] at hidx
  · have := mem_case_calls_of_index tests 0 i t ht c hc (by rw [Nat.zero_add]; exact hidx)
    rw [Nat.zero_add] at this
    exact this
  · rw [(mem_fixture_call _ _ _ _ hc).1] at hidx
    simp [Hook.index] at hidx

end CMocka

namespace CMocka

/-- The calls prescribed for the case at position `i` stand, together, in
the calls prescribed for the cases. -/
theorem cases_calls_split (tests : List CMUnitTest) (k i : Nat) (t : CMUnitTest)
    (ht : tests[i]? = some t) :
    ∃ before after, cases_calls k tests = before ++ case_calls (k + i) t ++ after := by
  induction tests generalizing k i with
  | nil => simp at ht
  | cons u rest ih =>
    cases i with
    | zero =>
      simp only [List.getElem?_cons_zero, Option.some.injEq] at ht
      subst ht
      exact ⟨[], cases_calls (k + 1) rest, by simp [cases_calls]⟩
    | succ m =>
      simp only [List.getElem?_cons_succ] at ht
      obtain ⟨b, a, hba⟩ := ih (k + 1) m ht
      have hidx : k + 1 + m = k + (m + 1) := by omega
      rw [hidx] at hba
      exact ⟨case_calls k u ++ b, a, by simp [cases_calls, hba]⟩

/-- C13: per-test state is threaded through one case and does not leak to
the next.  The iteration for case `i`, from any world, calls a first part, not
empty, of: the setup (if present) on a cell holding that case's
`initial_state`; then, unless the setup returned non-zero, the body on the
cell as the setup left it (the `initial_state` when there is no setup) and the
teardown (if present) on the cell as the body left it; it calls all of them
when no assertion of the case fails, and in a run in which no assertion fails
these calls stand in the record of the run.  In every run, however it ends,
every call of a hook of case `i` carries the cell just described, and the cell
handed to a hook of case `i + 1` is the same in any other run whose case
`i + 1` is the same record, whatever its case `i` is and writes. -/
theorem state_cell_is_threaded_per_case (group_name : String) (tests : List CMUnitTest)
    (group_setup group_teardown : Option CMFixtureFunction) (w : World) (i : Nat)
    (t : CMUnitTest) (ht : tests[i]? = some t) :
    case_calls i t =
      fixture_call (.setup i) t.setup_func (some t.initial_state) ++
        (if t.setup_fails then []
         else ⟨.test i, some (match t.setup_func with
            | some f => (f (some t.initial_state)).state
            | none => t.initial_state)⟩ ::
           fixture_call (.teardown i) t.teardown_func
             (some (t.test_func (some t.body_state)).state)) ∧
    (∀ w1, ∃ made1, (run_test i t w1).world.calls = w1.calls ++ made1 ∧ made1 ≠ [] ∧
      made1 <+: case_calls i t) ∧
    (t.no_assertion_fails = true →
      ∀ w1, (run_test i t w1).world.calls = w1.calls ++ case_calls i t) ∧
    ∃ made,
      (_cmocka_run_group_tests group_name tests group_setup group_teardown w).world.calls =
        w.calls ++ made ∧
      (GroupRun.no_assertion_fails ⟨group_name, tests, group_setup, group_teardown⟩ = true →
        ∃ before after, made = before ++ case_calls i t ++ after) ∧
      (∀ c ∈ made, c.hook = .setup i → c.arg = some t.initial_state) ∧
      (∀ c ∈ made, c.hook = .test i →
        c.arg = some (match t.setup_func with
          | some f => (f (some t.initial_state)).state
          | none => t.initial_state)) ∧
      (∀ c ∈ made, c.hook = .teardown i →
        c.arg = some (t.test_func (some t.body_state)).state) ∧
      (∀ (group_name2 : String) (tests2 : List CMUnitTest)
          (group_setup2 group_teardown2 : Option CMFixtureFunction) (w2 : World)
          (u : CMUnitTest), tests[i + 1]? = some u → tests2[i + 1]? = some u →
        ∃ made2,
          (_cmocka_run_group_tests group_name2 tests2 group_setup2 group_teardown2
            w2).world.calls = w2.calls ++ made2 ∧
          ∀ c ∈ made, ∀ c2 ∈ made2, c.hook.index = some (i + 1) → c2.hook = c.hook →
            c2.arg = c.arg) := by
  obtain ⟨made, hcalls, hmem⟩ := run_group_world_calls group_name tests group_setup
    group_teardown w
  have hcase : ∀ c ∈ made, c.hook.index = some i → c ∈ case_calls i t := fun c hc hidx =>
    mem_case_calls_of_mem_group_calls tests group_setup group_teardown i t ht c (hmem c hc) hidx
  refine ⟨rfl, fun w1 => run_test_calls_initial i t w1, ?_, made, hcalls, ?_, ?_, ?_, ?_, ?_⟩
  · intro hclean w1
    rw [run_test_of_no_assertion_fails i t w1 hclean]
    rfl
  · intro hclean
    have hrun := call_of_no_assertion_fails ⟨group_name, tests, group_setup, group_teardown⟩
      w hclean
    simp only [GroupRun.call] at hrun
    rw [hrun] at hcalls
    simp only [Outcome.world] at hcalls
    have hmade : made = group_calls tests group_setup group_teardown :=
      (List.append_cancel_left hcalls).symm
    obtain ⟨b, a, hba⟩ := cases_calls_split tests 0 i t ht
    rw [Nat.zero_add] at hba
    exact ⟨fixture_call .group_setup group_setup none ++ b,
      a ++ fixture_call .group_teardown group_teardown none,
      by rw [hmade]; simp [group_calls, hba]⟩
  · intro c hc hh
    exact (arg_of_mem_case_calls i t c (hcase c hc (by rw [hh]; rfl))).1 hh
  · intro c hc hh
    exact (arg_of_mem_case_calls i t c (hcase c hc (by rw [hh]; rfl))).2.1 hh
  · intro c hc hh
    exact (arg_of_mem_case_calls i t c (hcase c hc (by rw [hh]; rfl))).2.2 hh
  · intro group_name2 tests2 group_setup2 group_teardown2 w2 u hu hu2
    obtain ⟨made2, hcalls2, hmem2⟩ := run_group_world_calls group_name2 tests2 group_setup2
      group_teardown2 w2
    refine ⟨made2, hcalls2, ?_⟩
    intro c hc c2 hc2 hidx hh
    have h1 := mem_case_calls_of_mem_group_calls tests group_setup group_teardown (i + 1) u hu
      c (hmem c hc) hidx
    have h2 := mem_case_calls_of_mem_group_calls tests2 group_setup2 group_teardown2 (i + 1) u
      hu2 c2 (hmem2 c2 hc2) (by rw [hh]; exact hidx)
    have a1 := arg_of_mem_case_calls (i + 1) u c h1
    have a2 := arg_of_mem_case_calls (i + 1) u c2 h2
    cases hk : c.hook with
    | group_setup => rw [hk] at hidx; simp [Hook.index] at hidx
    | group_teardown => rw [hk] at hidx; simp [Hook.index] at hidx
    | setup j =>
      have hj : j = i + 1 := by rw [hk] at hidx; simpa [Hook.index] using hidx
      subst hj
      rw [a1.1 hk, a2.1 (hh.trans hk)]
    | test j =>
      have hj : j = i + 1 := by rw [hk] at hidx; simpa [Hook.index] using hidx
      subst hj
      rw [a1.2.1 hk, a2.2.1 (hh.trans hk)]
    | teardown j =>
      have hj : j = i + 1 := by rw [hk] at hidx; simpa [Hook.index] using hidx
      subst hj
      rw [a1.2.2 hk, a2.2.2 (hh.trans hk)]

/-- C13, at a run of `case_full`, whose setup stores 7 in the cell, followed
by `case_plain`. -/
theorem state_cell_is_threaded_per_case_witness :
    case_calls 0 Sample.case_full =
      fixture_call (.setup 0) Sample.case_full.setup_func
          (some Sample.case_full.initial_state) ++
        (if Sample.case_full.setup_fails then []
         else ⟨.test 0, some (match Sample.case_full.setup_func with
            | some f => (f (some Sample.case_full.initial_state)).state
            | none => Sample.case_full.initial_state)⟩ ::
           fixture_call (.teardown 0) Sample.case_full.teardown_func
             (some (Sample.case_full.test_func (some Sample.case_full.body_state)).state)) ∧
    (∀ w1, ∃ made1, (run_test 0 Sample.case_full w1).world.calls = w1.calls ++ made1 ∧
      made1 ≠ [] ∧ made1 <+: case_calls 0 Sample.case_full) ∧
    (Sample.case_full.no_assertion_fails = true →
      ∀ w1, (run_test 0 Sample.case_full w1).world.calls =
        w1.calls ++ case_calls 0 Sample.case_full) ∧
    ∃ made,
      (_cmocka_run_group_tests "tests" [Sample.case_full, Sample.case_plain] none none
        World.fresh).world.calls = World.fresh.calls ++ made ∧
      (GroupRun.no_assertion_fails
          ⟨"tests", [Sample.case_full, Sample.case_plain], none, none⟩ = true →
        ∃ before after, made = before ++ case_calls 0 Sample.case_full ++ after) ∧
      (∀ c ∈ made, c.hook = .setup 0 → c.arg = some Sample.case_full.initial_state) ∧
      (∀ c ∈ made, c.hook = .test 0 →
        c.arg = some (match Sample.case_full.setup_func with
          | some f => (f (some Sample.case_full.initial_state)).state
          | none => Sample.case_full.initial_state)) ∧
      (∀ c ∈ made, c.hook = .teardown 0 →
        c.arg = some (Sample.case_full.test_func (some Sample.case_full.body_state)).state) ∧
      (∀ (group_name2 : String) (tests2 : List CMUnitTest)
          (group_setup2 group_teardown2 : Option CMFixtureFunction) (w2 : World)
          (u : CMUnitTest), [Sample.case_full, Sample.case_plain][0 + 1]? = some u →
          tests2[0 + 1]? = some u →
        ∃ made2,
          (_cmocka_run_group_tests group_name2 tests2 group_setup2 group_teardown2
            w2).world.calls = w2.calls ++ made2 ∧
          ∀ c ∈ made, ∀ c2 ∈ made2, c.hook.index = some (0 + 1) → c2.hook = c.hook →
            c2.arg = c.arg) :=
  state_cell_is_threaded_per_case "tests" [Sample.case_full, Sample.case_plain] none none
    World.fresh 0 Sample.case_full rfl

/-- The calls of `case_full`: its setup on the initial cell 0, its body and
its teardown on the cell holding the 7 the setup stored. -/
theorem case_calls_case_full :
    case_calls 0 Sample.case_full =
      [⟨.setup 0, some 0⟩, ⟨.test 0, some 7⟩, ⟨.teardown 0, some 7⟩] := by
  decide

end CMocka
